import Mathlib

/-!
# TESS3 solver (`src/solver.cpp`): constraint projections and the alternating solver

A shallow embedding of `ProjectQ`, `ProjectG`, `ComputeMCPASolution` and
`ComputeMCPASolutionNoCopyX` over an arbitrary linearly ordered field `α`
(exact arithmetic; `ℚ` is used for concrete evaluations).

* `Eigen::MatrixXd` with `r` rows and `c` columns is `Matrix (Fin r) (Fin c) α`.
* `for (int i = 0; i < n; i++) body` is `forLoop n body`.
* `M(i, j)` reads are `coeff M i j`, writes are `setCoeff M i j v`, with `i j : Nat`
  exactly as the source indexes them.
* `int` values are `Int`; the products the source forms in `int` for `lambda` are
  wrapped to 32 bits, and row indices `D * l + j`, which stay below the row count, are
  not.
* Calls into the Eigen library (`SelfAdjointEigenSolver`, `LDLT::solve`, the square
  root inside `norm()`) are fields of `EigenLib`, a parameter of the solver.
* The OpenMP pragmas are not modelled: the embedding is the sequential build.
-/

set_option autoImplicit false
set_option linter.unusedSectionVars false

open Matrix

namespace TESS3

variable {α : Type} [LinearOrderedField α]

/-! ## Loops and element access -/

/-- The loop `for (int i = 0; i < n; i++) s = body i s`. -/
def forLoop {σ : Type} (n : Nat) (body : Nat → σ → σ) (init : σ) : σ :=
  (List.range n).foldl (fun s i => body i s) init

/-- The read `M(i, j)`. Outside the matrix the source has no defined value; the
embedding returns `0` there (no loop of the source reads outside). -/
def coeff {r c : Nat} (M : Matrix (Fin r) (Fin c) α) (i j : Nat) : α :=
  if h : i < r ∧ j < c then M ⟨i, h.1⟩ ⟨j, h.2⟩ else 0

/-- The write `M(i, j) = v`. -/
def setCoeff {r c : Nat} (M : Matrix (Fin r) (Fin c) α) (i j : Nat) (v : α) :
    Matrix (Fin r) (Fin c) α :=
  fun a b => if a.val = i ∧ b.val = j then v else M a b

/-- The floor `1e-5` of both projections. -/
def floorEps : α := 1 / 100000

/-! ## ProjectQ (solver.cpp, lines 34-44) -/

/-- The statement `Q.row(i) /= rowSum`. -/
def divRow {r c : Nat} (Q : Matrix (Fin r) (Fin c) α) (i : Nat) (rowSum : α) :
    Matrix (Fin r) (Fin c) α :=
  fun a b => if a.val = i then Q a b / rowSum else Q a b

/-- Body of the inner loop of `ProjectQ`:
`Q(i,j) = std::max(1e-5, Q(i,j)); rowSum += Q(i,j);`. -/
def ProjectQ.inner {r c : Nat} (i j : Nat) (st : Matrix (Fin r) (Fin c) α × α) :
    Matrix (Fin r) (Fin c) α × α :=
  let Q1 := setCoeff st.1 i j (max floorEps (coeff st.1 i j))
  (Q1, st.2 + coeff Q1 i j)

/-- Body of the outer loop of `ProjectQ`: reset `rowSum`, run the inner loop over the
columns, divide row `i` by `rowSum`. -/
def ProjectQ.outer {r c : Nat} (i : Nat) (Q : Matrix (Fin r) (Fin c) α) :
    Matrix (Fin r) (Fin c) α :=
  let st := forLoop c (ProjectQ.inner i) (Q, 0)
  divRow st.1 i st.2

/-- The function `ProjectQ`: project `Q` into the constraint space, row by row. -/
def ProjectQ {r c : Nat} (Q : Matrix (Fin r) (Fin c) α) : Matrix (Fin r) (Fin c) α :=
  forLoop r ProjectQ.outer Q

/-! ## ProjectG (solver.cpp, lines 46-59) -/

/-- The statement `G.block(i0, k, D, 1) /= sum`: rows `i0 .. i0 + D - 1` of column `k`. -/
def divBlock {r c : Nat} (G : Matrix (Fin r) (Fin c) α) (i0 k D : Nat) (sum : α) :
    Matrix (Fin r) (Fin c) α :=
  fun a b => if i0 ≤ a.val ∧ a.val < i0 + D ∧ b.val = k then G a b / sum else G a b

/-- Body of the innermost loop of `ProjectG`:
`G(D*l+j, k) = std::max(1e-5, G(D*l+j, k)); sum += G(D*l+j, k);`. -/
def ProjectG.inner {r c : Nat} (D : Int) (k l j : Nat) (st : Matrix (Fin r) (Fin c) α × α) :
    Matrix (Fin r) (Fin c) α × α :=
  let idx := (D * l + j).toNat
  let G1 := setCoeff st.1 idx k (max floorEps (coeff st.1 idx k))
  (G1, st.2 + coeff G1 idx k)

/-- Body of the loop over the blocks `l` of `ProjectG`: reset `sum`, floor and add up
the `D` entries of the slice, divide the slice by `sum`. -/
def ProjectG.block {r c : Nat} (D : Int) (k l : Nat) (G : Matrix (Fin r) (Fin c) α) :
    Matrix (Fin r) (Fin c) α :=
  let st := forLoop D.toNat (ProjectG.inner D k l) (G, 0)
  divBlock st.1 (D * l).toNat k D.toNat st.2

/-- The function `ProjectG`: `L = G.rows() / D` (C++ division, truncating), then for
every column `k` and every block `l < L` the block body. `D = 0` is a division by zero
in the source; `Int.tdiv` gives `L = 0` there and the theorems below assume `0 < D`. -/
def ProjectG {r c : Nat} (G : Matrix (Fin r) (Fin c) α) (D : Int) :
    Matrix (Fin r) (Fin c) α :=
  let L : Int := Int.tdiv (r : Int) D
  forLoop c (fun k G => forLoop L.toNat (ProjectG.block D k) G) G

/-! ## int arithmetic (solver.cpp, lines 71-72 and 86) -/

/-- An integer reduced to the range of a 32-bit signed `int`. -/
def wrapInt (x : Int) : Int := (x + 2147483648) % 4294967296 - 2147483648

/-- The product `a * b` formed in `int`. -/
def intMul (a b : Int) : Int := wrapInt (a * b)

/-! ## The Eigen library -/

/-- The Eigen calls of the solver, for `n × n` Laplacians and `K × K` systems. They are
not code of the repository and are taken as a parameter. -/
structure EigenLib (α : Type) (n K : Nat) where
  /-- The call `SelfAdjointEigenSolver<MatrixXd>(A).eigenvalues()`. -/
  eigenvalues : Matrix (Fin n) (Fin n) α → Fin n → α
  /-- The call `SelfAdjointEigenSolver<MatrixXd>(A).eigenvectors()`. -/
  eigenvectors : Matrix (Fin n) (Fin n) α → Matrix (Fin n) (Fin n) α
  /-- The call `A.ldlt().solve(b)`. -/
  ldltSolve : Matrix (Fin K) (Fin K) α → (Fin K → α) → Fin K → α
  /-- The square root taken inside `norm()`. -/
  sqrt : α → α

/-- The call `v.maxCoeff()`. Eigen defines no value on an empty vector; the embedding
returns `0` there. -/
def maxCoeff : {n : Nat} → (Fin n → α) → α
  | 0, _ => 0
  | _ + 1, v => (List.ofFn v).foldl max (v 0)

/-- The call `M.norm()`: square root of the sum of the squared entries. -/
def norm {n K r c : Nat} (lib : EigenLib α n K) (M : Matrix (Fin r) (Fin c) α) : α :=
  lib.sqrt (∑ i, ∑ j, M i j * M i j)

/-- The expression `M.row(i)`, read with the index the source uses. -/
def rowAt {r c : Nat} (M : Matrix (Fin r) (Fin c) α) (i : Nat) : Fin c → α :=
  fun b => coeff M i b.val

/-- The expression `M.col(j)`, read with the index the source uses. -/
def colAt {r c : Nat} (M : Matrix (Fin r) (Fin c) α) (j : Nat) : Fin r → α :=
  fun a => coeff M a.val j

/-- The read `v(i)` of a vector. -/
def vecAt {n : Nat} (v : Fin n → α) (i : Nat) : α :=
  if h : i < n then v ⟨i, h⟩ else 0

/-- The assignment `M.row(i) = v`. -/
def setRow {r c : Nat} (M : Matrix (Fin r) (Fin c) α) (i : Nat) (v : Fin c → α) :
    Matrix (Fin r) (Fin c) α :=
  fun a b => if a.val = i then v b else M a b

/-! ## The solver (solver.cpp, lines 69-150 and 161-255) -/

/-- Lines 84-87: `lambda = 0.0; if (vpMax != 0.0) lambda = lambdaPrim * (D * L * n) /
(K * n * vpMax);` with `D * L * n` and `K * n` formed in `int` and then converted. -/
def lambdaOf (lambdaPrim : α) (D L n K : Int) (vpMax : α) : α :=
  if vpMax ≠ 0 then
    lambdaPrim * ((intMul (intMul D L) n : Int) : α) / (((intMul K n : Int) : α) * vpMax)
  else 0

/-- The regularization weight `lambda` as both entry points compute it at solve start
(lines 71-87 and 163-179): `L = X.cols() / D`, `n = X.rows()`,
`vpMax = vps.maxCoeff()`. The `K` of the source is the column count of `Q` and `G`
(`Ik` is added to `G.transpose() * G`). The dimensions are those of R matrices, which
fit an `int`, so `L` and `n` are stored without loss; the products are formed by
`intMul`. -/
def solverLambda {n m K : Nat} (lib : EigenLib α n K) (_X : Matrix (Fin n) (Fin m) α)
    (Lapl : Matrix (Fin n) (Fin n) α) (lambdaPrim : α) (D : Int) : α :=
  let L : Int := Int.tdiv (m : Int) D
  let vps := lib.eigenvalues Lapl
  let vpMax := maxCoeff vps
  lambdaOf lambdaPrim D L (n : Int) (K : Int) vpMax

/-- The variables of the main loop that live across iterations. `lltG` is assigned at
the top of every iteration before it is used and is a local of `updateG`. -/
structure SolverState (α : Type) (n m K : Nat) where
  Q : Matrix (Fin n) (Fin K) α
  G : Matrix (Fin m) (Fin K) α
  RQ : Matrix (Fin n) (Fin K) α
  err : α
  errAux : α
  it : Int
  converg : Bool

/-- Lines 114-121: `lltG = (Q.transpose() * Q).ldlt();` then for every row `j` of `G`,
`G.row(j) = lltG.solve(Q.transpose() * X.col(j)).transpose()`. -/
def updateG {n m K : Nat} (lib : EigenLib α n K) (X : Matrix (Fin n) (Fin m) α)
    (Q : Matrix (Fin n) (Fin K) α) (G : Matrix (Fin m) (Fin K) α) :
    Matrix (Fin m) (Fin K) α :=
  let lltG := lib.ldltSolve (Qᵀ * Q)
  forLoop m (fun j G => setRow G j (lltG (Qᵀ *ᵥ colAt X j))) G

/-- Lines 131-133: for every `i < n`, `RQ.row(i) = (G.transpose() * G + lambda * vps(i)
* Ik).ldlt().solve(G.transpose() * RX.row(i).transpose()).transpose()`. -/
def updateRQ {n m K : Nat} (lib : EigenLib α n K) (lambda : α) (vps : Fin n → α)
    (G : Matrix (Fin m) (Fin K) α) (RX : Matrix (Fin n) (Fin m) α)
    (RQ : Matrix (Fin n) (Fin K) α) : Matrix (Fin n) (Fin K) α :=
  forLoop n (fun i RQ =>
    setRow RQ i (lib.ldltSolve (Gᵀ * G + (lambda * vecAt vps i) • (1 : Matrix (Fin K) (Fin K) α))
      (Gᵀ *ᵥ rowAt RX i))) RQ

/-- Lines 228-238 (build without OpenMP): for every `i < n`, `RXi.row(0) = R.row(i) * X`
and then the same solve as `updateRQ` with `RXi.row(0)` in place of `RX.row(i)`. -/
def updateRQNoCopyX {n m K : Nat} (lib : EigenLib α n K) (lambda : α) (vps : Fin n → α)
    (G : Matrix (Fin m) (Fin K) α) (R : Matrix (Fin n) (Fin n) α)
    (X : Matrix (Fin n) (Fin m) α)
    (st : Matrix (Fin n) (Fin K) α × Matrix (Fin 1) (Fin m) α) :
    Matrix (Fin n) (Fin K) α × Matrix (Fin 1) (Fin m) α :=
  forLoop n (fun i st =>
    let RXi := setRow st.2 0 (rowAt R i ᵥ* X)
    (setRow st.1 i
      (lib.ldltSolve (Gᵀ * G + (lambda * vecAt vps i) • (1 : Matrix (Fin K) (Fin K) α))
        (Gᵀ *ᵥ rowAt RXi 0)), RXi)) st

/-- Lines 139-146: the relative residual `(X - Q * G.transpose()).norm() / X.norm()`.
For `X = 0` the source divides by zero in floating point; the value here is then `0`. -/
def residual {n m K : Nat} (lib : EigenLib α n K) (X : Matrix (Fin n) (Fin m) α)
    (Q : Matrix (Fin n) (Fin K) α) (G : Matrix (Fin m) (Fin K) α) : α :=
  norm lib (X - Q * Gᵀ) / norm lib X

/-- One pass of the body of the main loop of `ComputeMCPASolution` (lines 110-148). -/
def iteration {n m K : Nat} (lib : EigenLib α n K) (X : Matrix (Fin n) (Fin m) α)
    (D : Int) (tolerance : α) (vps : Fin n → α) (R : Matrix (Fin n) (Fin n) α)
    (RX : Matrix (Fin n) (Fin m) α) (lambda : α) (st : SolverState α n m K) :
    SolverState α n m K :=
  let G1 := updateG lib X st.Q st.G
  let G2 := ProjectG G1 D
  let RQ0 := R * st.Q
  let RQ1 := updateRQ lib lambda vps G2 RX RQ0
  let Q1 := Rᵀ * RQ1
  let Q2 := ProjectQ Q1
  let errAux := residual lib X Q2 G2
  { Q := Q2, G := G2, RQ := RQ1, err := errAux, errAux := errAux, it := st.it + 1,
    converg := decide (|errAux - st.err| < tolerance) }

/-- One pass of the body of the main loop of `ComputeMCPASolutionNoCopyX`
(lines 207-253); the second component is the scratch matrix `RXi`. -/
def iterationNoCopyX {n m K : Nat} (lib : EigenLib α n K) (X : Matrix (Fin n) (Fin m) α)
    (D : Int) (tolerance : α) (vps : Fin n → α) (R : Matrix (Fin n) (Fin n) α)
    (lambda : α) (st : SolverState α n m K × Matrix (Fin 1) (Fin m) α) :
    SolverState α n m K × Matrix (Fin 1) (Fin m) α :=
  let G1 := updateG lib X st.1.Q st.1.G
  let G2 := ProjectG G1 D
  let RQ0 := R * st.1.Q
  let RQ1 := updateRQNoCopyX lib lambda vps G2 R X (RQ0, st.2)
  let Q1 := Rᵀ * RQ1.1
  let Q2 := ProjectQ Q1
  let errAux := residual lib X Q2 G2
  ({ Q := Q2, G := G2, RQ := RQ1.1, err := errAux, errAux := errAux, it := st.1.it + 1,
     converg := decide (|errAux - st.1.err| < tolerance) }, RQ1.2)

/-- The loop test `!converg && it < maxIteration`. -/
def loopCond {n m K : Nat} (maxIteration : Int) (st : SolverState α n m K) : Bool :=
  !st.converg && decide (st.it < maxIteration)

/-- The loop `while (cond) body` run for at most `fuel` passes. -/
def mainLoop {σ : Type} (cond : σ → Bool) (body : σ → σ) : Nat → σ → σ
  | 0, st => st
  | fuel + 1, st => if cond st then mainLoop cond body fuel (body st) else st

/-- The variables at loop entry (lines 93-106): `RQ = Q`, `err = -10.0`, `errAux = 0.0`,
`it = 0`, `converg = FALSE`. -/
def initState {n m K : Nat} (Q : Matrix (Fin n) (Fin K) α) (G : Matrix (Fin m) (Fin K) α) :
    SolverState α n m K :=
  { Q := Q, G := G, RQ := Q, err := -10, errAux := 0, it := 0, converg := false }

/-- The function `ComputeMCPASolution`, returning the loop variables at exit (`Q` and `G`
are the in-place outputs of the source). `it` starts at `0` and grows by one per pass,
so `maxIteration.toNat` passes exhaust the test `it < maxIteration`; `verbose` only
prints and is left out. -/
def ComputeMCPASolution {n m K : Nat} (lib : EigenLib α n K) (X : Matrix (Fin n) (Fin m) α)
    (Lapl : Matrix (Fin n) (Fin n) α) (lambdaPrim : α) (D : Int) (maxIteration : Int)
    (tolerance : α) (Q : Matrix (Fin n) (Fin K) α) (G : Matrix (Fin m) (Fin K) α) :
    SolverState α n m K :=
  let vps := lib.eigenvalues Lapl
  let R := (lib.eigenvectors Lapl)ᵀ
  let RX := R * X
  let lambda := solverLambda lib X Lapl lambdaPrim D
  mainLoop (loopCond maxIteration) (iteration lib X D tolerance vps R RX lambda)
    maxIteration.toNat (initState Q G)

/-- The function `ComputeMCPASolutionNoCopyX` (build without OpenMP). `RXi0` is the
content of the scratch matrix `RXi(1, X.cols())`, which the source leaves
uninitialised. -/
def ComputeMCPASolutionNoCopyX {n m K : Nat} (lib : EigenLib α n K)
    (X : Matrix (Fin n) (Fin m) α) (Lapl : Matrix (Fin n) (Fin n) α) (lambdaPrim : α)
    (D : Int) (maxIteration : Int) (tolerance : α) (Q : Matrix (Fin n) (Fin K) α)
    (G : Matrix (Fin m) (Fin K) α) (RXi0 : Matrix (Fin 1) (Fin m) α) :
    SolverState α n m K :=
  let vps := lib.eigenvalues Lapl
  let R := (lib.eigenvectors Lapl)ᵀ
  let lambda := solverLambda lib X Lapl lambdaPrim D
  (mainLoop (fun st => loopCond maxIteration st.1)
    (iterationNoCopyX lib X D tolerance vps R lambda)
    maxIteration.toNat (initState Q G, RXi0)).1

/-! ## Notions used to state the properties -/

/-- The state after `t` passes of the loop body of `ComputeMCPASolution`, the loop test
left aside; `t = 0` is the state at loop entry. -/
def iterates {n m K : Nat} (lib : EigenLib α n K) (X : Matrix (Fin n) (Fin m) α)
    (Lapl : Matrix (Fin n) (Fin n) α) (lambdaPrim : α) (D : Int) (tolerance : α)
    (Q : Matrix (Fin n) (Fin K) α) (G : Matrix (Fin m) (Fin K) α) (t : Nat) :
    SolverState α n m K :=
  (iteration lib X D tolerance (lib.eigenvalues Lapl) (lib.eigenvectors Lapl)ᵀ
    ((lib.eigenvectors Lapl)ᵀ * X) (solverLambda lib X Lapl lambdaPrim D))^[t] (initState Q G)

/-- Sum of the floored entries of the slice (block `l`, column `k`) of `G`, the value
`sum` holds when `ProjectG` divides the slice. -/
def blockSum {r c : Nat} (G : Matrix (Fin r) (Fin c) α) (d l k : Nat) : α :=
  ∑ j in Finset.range d, max floorEps (coeff G (d * l + j) k)

/-- Every row of `Q` is entrywise positive and sums to 1. -/
def RowSimplex {r c : Nat} (Q : Matrix (Fin r) (Fin c) α) : Prop :=
  ∀ a, (∀ b, 0 < Q a b) ∧ ∑ b, Q a b = 1

/-- For every block `l < rows / D` and every column `k`, the `D` entries in rows
`D*l .. D*l+D-1` of column `k` are positive and sum to 1. -/
def BlockSimplex {r c : Nat} (G : Matrix (Fin r) (Fin c) α) (D : Int) : Prop :=
  ∀ l : Nat, (l : Int) < Int.tdiv (r : Int) D → ∀ k : Fin c,
    (∀ j, j < D.toNat → 0 < coeff G (D * l + j).toNat k.val) ∧
      ∑ j in Finset.range D.toNat, coeff G (D * l + j).toNat k.val = 1

/-- What Eigen documents for `LDLT::solve` in exact arithmetic: on a symmetric positive
definite matrix `A` the returned `x` satisfies `A x = b`. -/
def LDLTExact {n K : Nat} (lib : EigenLib α n K) : Prop :=
  ∀ (A : Matrix (Fin K) (Fin K) α) (b : Fin K → α), A.IsSymm →
    (∀ v, v ≠ 0 → 0 < v ⬝ᵥ (A *ᵥ v)) → A *ᵥ lib.ldltSolve A b = b

/-! ## Concrete inputs -/

/-- The Eigen calls on `1 × 1` matrices over `ℚ`: the eigenvalue of `(a)` is `a` with
eigenvector `(1)`, the solution of `(a) x = (b)` is `b / a`, and `Rat.sqrt` is the square
root on squares of rationals. For `a = 0` the value is `b / 0 = 0`, which is what
`LDLT::solve` returns there (it sets the rows of zero pivots to zero). -/
def lib1 : EigenLib ℚ 1 1 where
  eigenvalues := fun A _ => A 0 0
  eigenvectors := fun _ => 1
  ldltSolve := fun A b _ => b 0 / A 0 0
  sqrt := Rat.sqrt

/-- The `1 × 1` matrix `(x)`. -/
def mat1 (x : ℚ) : Matrix (Fin 1) (Fin 1) ℚ := fun _ _ => x

/-- The one-row matrix `(1, 0)`. -/
def rowOneZero : Matrix (Fin 1) (Fin 2) ℚ := !![1, 0]

/-- The one-row matrix `(1/2, 1/2)`. -/
def rowHalves : Matrix (Fin 1) (Fin 2) ℚ := !![1/2, 1/2]

/-- The one-column matrix with entries `1, 0`. -/
def colOneZero : Matrix (Fin 2) (Fin 1) ℚ := !![1; 0]

/-! ## InitOpenMP (solver.cpp, lines 13-27) -/

/-- What `InitOpenMP` reports to the caller: the line printed on `Rcout` when the
request is clamped (with the processor count it prints), and the `Rcpp::warning` of the
build without OpenMP. -/
inductive Advisory where
  | clamped (procs : Int)
  | noOpenMP
  deriving DecidableEq

/-- The part of the run-time that `InitOpenMP` acts on: the thread count last given to
`omp_set_num_threads` and the advisories issued so far. -/
structure Workers where
  numThreads : Int
  advisories : List Advisory

/-- The function `InitOpenMP`. `openmp` says whether `_OPENMP` is defined and `numProcs` is
the value of `omp_get_num_procs()`. With OpenMP: `if (omp_get_num_procs() < n)` print the
advisory and set `n = omp_get_num_procs()`, then `omp_set_num_threads(n)`
(`Eigen::initParallel()` changes nothing modelled here). Without: `if (n > 1)` warn. -/
def InitOpenMP (openmp : Bool) (numProcs : Int) (n : Int) (w : Workers) : Workers :=
  if openmp then
    let st : Int × List Advisory :=
      if numProcs < n then (numProcs, w.advisories ++ [Advisory.clamped numProcs])
      else (n, w.advisories)
    { numThreads := st.1, advisories := st.2 }
  else
    if n > 1 then { w with advisories := w.advisories ++ [Advisory.noOpenMP] } else w

/-! ## Graph weights (graph.cpp, lines 38-50 and 58-70) -/

/-- The call `v.squaredNorm()`. -/
def squaredNorm {d : Nat} (v : Fin d → α) : α := ∑ k, v k * v k

/-- The dense matrix `MatrixXd(W.selfadjointView<Lower>())`: the lower triangle of `W`
(entries with column `≤` row) mirrored onto the upper triangle. -/
def selfadjointViewLower {n : Nat} (W : Matrix (Fin n) (Fin n) α) : Matrix (Fin n) (Fin n) α :=
  fun i j => if j.val ≤ i.val then W i j else W j i

/-- The function `ComputeHeatKernelWeight`. `exp` is `std::exp` and `W0` is the content of
`W(coord.rows(), coord.rows())` before the loops, which the source leaves uninitialised.
For `i < rows` and `j <= i`: `W(i,j) = exp(-(coord.row(i) - coord.row(j)).squaredNorm()
/ sigma / sigma)`; then `W = MatrixXd(W.selfadjointView<Lower>())`. -/
def ComputeHeatKernelWeight {n d : Nat} (exp : α → α) (coord : Matrix (Fin n) (Fin d) α)
    (sigma : α) (W0 : Matrix (Fin n) (Fin n) α) : Matrix (Fin n) (Fin n) α :=
  let W := forLoop n (fun i W =>
    forLoop (i + 1) (fun j W =>
      setCoeff W i j (exp (-squaredNorm (rowAt coord i - rowAt coord j) / sigma / sigma))) W) W0
  selfadjointViewLower W

/-- The function `ComputeExponetialWeight`, with `exp` for `std::exp` and `sqrt` for
`std::sqrt`: the same loops with `W(i,j) = exp(-sqrt((coord.row(i) -
coord.row(j)).squaredNorm()) / sigma)`. -/
def ComputeExponetialWeight {n d : Nat} (exp sqrt : α → α) (coord : Matrix (Fin n) (Fin d) α)
    (sigma : α) (W0 : Matrix (Fin n) (Fin n) α) : Matrix (Fin n) (Fin n) α :=
  let W := forLoop n (fun i W =>
    forLoop (i + 1) (fun j W =>
      setCoeff W i j (exp (-sqrt (squaredNorm (rowAt coord i - rowAt coord j)) / sigma))) W) W0
  selfadjointViewLower W

/-! ## Parallel regions (solver.cpp, lines 108-110 and 205-207) -/

/-- The number of times a run of `while (cond) body` enters its body, for at most `fuel`
passes. In both solvers the body of the `while` is the `#pragma omp parallel` construct
(the pragma stands between `while (...)` and the opening brace), so in the build with
OpenMP this is the number of times the solve enters a parallel region. -/
def parallelRegionEntries {σ : Type} (cond : σ → Bool) (body : σ → σ) : Nat → σ → Nat
  | 0, _ => 0
  | fuel + 1, st =>
    if cond st then parallelRegionEntries cond body fuel (body st) + 1 else 0

/-- Parallel regions entered by one call of `ComputeMCPASolution` (build with OpenMP). -/
def ComputeMCPASolution.regionEntries {n m K : Nat} (lib : EigenLib α n K)
    (X : Matrix (Fin n) (Fin m) α) (Lapl : Matrix (Fin n) (Fin n) α) (lambdaPrim : α)
    (D : Int) (maxIteration : Int) (tolerance : α) (Q : Matrix (Fin n) (Fin K) α)
    (G : Matrix (Fin m) (Fin K) α) : Nat :=
  let vps := lib.eigenvalues Lapl
  let R := (lib.eigenvectors Lapl)ᵀ
  let RX := R * X
  let lambda := solverLambda lib X Lapl lambdaPrim D
  parallelRegionEntries (loopCond maxIteration) (iteration lib X D tolerance vps R RX lambda)
    maxIteration.toNat (initState Q G)

/-- Parallel regions entered by one call of `ComputeMCPASolutionNoCopyX`; the loop body
is the sequential reading of `iterationNoCopyX`. -/
def ComputeMCPASolutionNoCopyX.regionEntries {n m K : Nat} (lib : EigenLib α n K)
    (X : Matrix (Fin n) (Fin m) α) (Lapl : Matrix (Fin n) (Fin n) α) (lambdaPrim : α)
    (D : Int) (maxIteration : Int) (tolerance : α) (Q : Matrix (Fin n) (Fin K) α)
    (G : Matrix (Fin m) (Fin K) α) (RXi0 : Matrix (Fin 1) (Fin m) α) : Nat :=
  let vps := lib.eigenvalues Lapl
  let R := (lib.eigenvectors Lapl)ᵀ
  let lambda := solverLambda lib X Lapl lambdaPrim D
  parallelRegionEntries (fun st => loopCond maxIteration st.1)
    (iterationNoCopyX lib X D tolerance vps R lambda)
    maxIteration.toNat (initState Q G, RXi0)

/-- The ridge objective `‖b - r Gᵀ‖² + c ‖r‖²` of Phase B for a row `b` of `RX`, a
candidate row `r` and the weight `c = lambda * vps[i]`; with `c = 0` and `Q` for `G` it
is the squared residual `‖b - Q g‖²` of Phase A. -/
def ridgeObjective {p K : Nat} (G : Matrix (Fin p) (Fin K) α) (c : α) (b : Fin p → α)
    (r : Fin K → α) : α :=
  (b - G *ᵥ r) ⬝ᵥ (b - G *ᵥ r) + c * (r ⬝ᵥ r)

/-! ## Loop lemmas -/

theorem forLoop_zero {σ : Type} (body : Nat → σ → σ) (init : σ) :
    forLoop 0 body init = init := rfl

theorem forLoop_succ {σ : Type} (n : Nat) (body : Nat → σ → σ) (init : σ) :
    forLoop (n + 1) body init = body n (forLoop n body init) := by
  simp [forLoop, List.range_succ, List.foldl_append]

theorem coeff_eq {r c : Nat} (M : Matrix (Fin r) (Fin c) α) (a : Fin r) (b : Fin c) :
    coeff M a.val b.val = M a b := by
  simp [coeff]

/-- State of the inner loop of `ProjectQ` after `t` columns of row `i`. -/
theorem ProjectQ_inner_loop {r c : Nat} (Q : Matrix (Fin r) (Fin c) α) (i t : Nat)
    (hi : i < r) (ht : t ≤ c) :
    forLoop t (ProjectQ.inner i) (Q, (0 : α)) =
      ((fun a b => if a.val = i ∧ b.val < t then max floorEps (Q a b) else Q a b),
        ∑ j in Finset.range t, max floorEps (coeff Q i j)) := by
  induction t with
  | zero => simp [forLoop_zero]
  | succ t ih =>
    rw [forLoop_succ, ih (by omega)]
    simp only [ProjectQ.inner, Finset.sum_range_succ]
    refine Prod.ext ?_ ?_
    · funext a b
      simp only [setCoeff]
      by_cases h1 : a.val = i
      · by_cases h2 : b.val = t
        · subst h1; subst h2
          simp [coeff]
        · have : b.val < t + 1 ↔ b.val < t := by omega
          simp [h1, h2, this]
      · simp [h1]
    · simp only
      congr 1
      have h : i < r ∧ t < c := ⟨hi, by omega⟩
      simp [coeff, setCoeff, h]

/-- Sums over `Finset.range c` of reads are sums over the column index type. -/
theorem sum_range_coeff {r c : Nat} (f : α → α) (M : Matrix (Fin r) (Fin c) α) (a : Fin r) :
    ∑ j in Finset.range c, f (coeff M a.val j) = ∑ j : Fin c, f (M a j) := by
  rw [Finset.sum_range]
  simp [coeff_eq]

/-- Effect of one pass of the outer loop of `ProjectQ` on row `i`. -/
theorem ProjectQ_outer_eq {r c : Nat} (Q : Matrix (Fin r) (Fin c) α) (i : Nat) (hi : i < r) :
    ProjectQ.outer i Q =
      fun a b => if a.val = i then max floorEps (Q a b) / ∑ j : Fin c, max floorEps (Q a j)
        else Q a b := by
  unfold ProjectQ.outer
  rw [ProjectQ_inner_loop Q i c hi le_rfl]
  funext a b
  simp only [divRow]
  by_cases h : a.val = i
  · have hs := sum_range_coeff (fun x => max floorEps x) Q a
    simp only [h] at hs
    simp [h, hs]
  · simp [h]

/-- State of the outer loop of `ProjectQ` after `t` rows. -/
theorem ProjectQ_outer_loop {r c : Nat} (Q : Matrix (Fin r) (Fin c) α) (t : Nat) (ht : t ≤ r) :
    forLoop t ProjectQ.outer Q =
      fun a b => if a.val < t then max floorEps (Q a b) / ∑ j : Fin c, max floorEps (Q a j)
        else Q a b := by
  induction t with
  | zero => simp [forLoop_zero]
  | succ t ih =>
    rw [forLoop_succ, ih (by omega), ProjectQ_outer_eq _ _ (by omega)]
    funext a b
    by_cases h1 : a.val = t
    · simp [h1]
    · by_cases h2 : a.val < t
      · have : a.val < t + 1 := by omega
        simp [h1, h2, this]
      · have : ¬ a.val < t + 1 := by omega
        simp [h1, h2, this]

/-- Closed form of `ProjectQ`: every entry is floored at `1e-5` and divided by the sum
of the floored entries of its row. -/
theorem ProjectQ_apply {r c : Nat} (Q : Matrix (Fin r) (Fin c) α) (a : Fin r) (b : Fin c) :
    ProjectQ Q a b = max floorEps (Q a b) / ∑ j : Fin c, max floorEps (Q a j) := by
  unfold ProjectQ
  rw [ProjectQ_outer_loop Q r le_rfl]
  simp

theorem toNat_index (d l j : Nat) : ((d : Int) * (l : Int) + (j : Int)).toNat = d * l + j := by
  rw [← Nat.cast_mul, ← Nat.cast_add]; exact Int.toNat_natCast _

theorem toNat_base (d l : Nat) : ((d : Int) * (l : Int)).toNat = d * l := by
  rw [← Nat.cast_mul]; exact Int.toNat_natCast _

/-- State of the innermost loop of `ProjectG` after `t` entries of the slice. -/
theorem ProjectG_inner_loop {r c : Nat} (G : Matrix (Fin r) (Fin c) α) (d k l t : Nat)
    (hk : k < c) (ht : d * l + t ≤ r) :
    forLoop t (ProjectG.inner (d : Int) k l) (G, (0 : α)) =
      ((fun a b => if d * l ≤ a.val ∧ a.val < d * l + t ∧ b.val = k
          then max floorEps (G a b) else G a b),
        ∑ j in Finset.range t, max floorEps (coeff G (d * l + j) k)) := by
  induction t with
  | zero =>
    rw [forLoop_zero]
    refine Prod.ext ?_ (by simp)
    funext a b
    have : ¬ (d * l ≤ a.val ∧ a.val < d * l + 0 ∧ b.val = k) := by omega
    exact (if_neg this).symm
  | succ t ih =>
    rw [forLoop_succ, ih (by omega)]
    simp only [ProjectG.inner, Finset.sum_range_succ, toNat_index]
    have hb : d * l + t < r ∧ k < c := ⟨by omega, hk⟩
    refine Prod.ext ?_ ?_
    · funext a b
      simp only [setCoeff]
      by_cases h1 : b.val = k
      · by_cases h2 : a.val = d * l + t
        · have ha : a = ⟨d * l + t, hb.1⟩ := Fin.ext h2
          have hb' : b = ⟨k, hk⟩ := Fin.ext h1
          subst ha; subst hb'
          simp [coeff, hb]
        · by_cases h3 : d * l ≤ a.val ∧ a.val < d * l + t
          · have : d * l ≤ a.val ∧ a.val < d * l + (t + 1) ∧ b.val = k := ⟨h3.1, by omega, h1⟩
            simp [h1, h2, h3, this]
          · have : ¬ (d * l ≤ a.val ∧ a.val < d * l + (t + 1) ∧ b.val = k) := by
              intro h; exact h3 ⟨h.1, by omega⟩
            have h3' : ¬ (d * l ≤ a.val ∧ a.val < d * l + t ∧ b.val = k) := by
              intro h; exact h3 ⟨h.1, h.2.1⟩
            simp [h2, h3', this]
      · simp [h1]
    · simp only
      congr 1
      simp [coeff, setCoeff, hb]

theorem coeff_congr {r c : Nat} (M N : Matrix (Fin r) (Fin c) α) (i j : Nat)
    (h : ∀ a b, a.val = i → b.val = j → M a b = N a b) : coeff M i j = coeff N i j := by
  unfold coeff
  by_cases hb : i < r ∧ j < c
  · simp only [hb, and_self, dite_true]
    exact h _ _ rfl rfl
  · simp [hb]

theorem blockSum_congr {r c : Nat} (M N : Matrix (Fin r) (Fin c) α) (d l k : Nat)
    (h : ∀ a b, d * l ≤ a.val → a.val < d * l + d → b.val = k → M a b = N a b) :
    blockSum M d l k = blockSum N d l k := by
  unfold blockSum
  refine Finset.sum_congr rfl fun j hj => ?_
  rw [Finset.mem_range] at hj
  rw [coeff_congr M N (d * l + j) k]
  intro a b ha hb
  exact h a b (by omega) (by omega) hb

/-- Effect of the block body of `ProjectG` on the slice (block `l`, column `k`). -/
theorem ProjectG_block_eq {r c : Nat} (G : Matrix (Fin r) (Fin c) α) (d k l : Nat)
    (hk : k < c) (hl : d * l + d ≤ r) :
    ProjectG.block (d : Int) k l G =
      fun a b => if d * l ≤ a.val ∧ a.val < d * l + d ∧ b.val = k
        then max floorEps (G a b) / blockSum G d l k else G a b := by
  unfold ProjectG.block
  rw [Int.toNat_natCast, ProjectG_inner_loop G d k l d hk hl, toNat_base]
  funext a b
  simp only [divBlock, blockSum]
  by_cases h : d * l ≤ a.val ∧ a.val < d * l + d ∧ b.val = k
  · simp [h]
  · simp [h]

/-- State of the loop over the blocks of column `k` in `ProjectG` after `t` blocks. -/
theorem ProjectG_block_loop {r c : Nat} (G : Matrix (Fin r) (Fin c) α) (d k t : Nat)
    (hk : k < c) (ht : d * t ≤ r) :
    forLoop t (ProjectG.block (d : Int) k) G =
      fun a b => if a.val < d * t ∧ b.val = k
        then max floorEps (G a b) / blockSum G d (a.val / d) k else G a b := by
  induction t with
  | zero => simp [forLoop_zero]
  | succ t ih =>
    have hmul : d * (t + 1) = d * t + d := by ring
    rw [forLoop_succ, ih (by omega), ProjectG_block_eq _ _ _ _ hk (by omega)]
    have hsum : blockSum (fun (a : Fin r) (b : Fin c) => if a.val < d * t ∧ b.val = k
        then max floorEps (G a b) / blockSum G d (a.val / d) k else G a b) d t k
        = blockSum G d t k := by
      apply blockSum_congr
      intro a b h1 _ _
      have : ¬ (a.val < d * t ∧ b.val = k) := by omega
      simp [this]
    rw [hsum]
    funext a b
    beta_reduce
    by_cases h2 : a.val < d * t ∧ b.val = k
    · have h3 : ¬ (d * t ≤ a.val ∧ a.val < d * t + d ∧ b.val = k) := by omega
      have h4 : a.val < d * (t + 1) ∧ b.val = k := ⟨by omega, h2.2⟩
      rw [if_neg h3, if_pos h2, if_pos h4]
    · by_cases h3 : d * t ≤ a.val ∧ a.val < d * t + d ∧ b.val = k
      · have h4 : a.val < d * (t + 1) ∧ b.val = k := ⟨by omega, h3.2.2⟩
        have hd : a.val / d = t :=
          Nat.div_eq_of_lt_le (by rw [Nat.mul_comm]; omega)
            (by rw [Nat.succ_mul, Nat.mul_comm]; omega)
        rw [if_pos h3, if_neg h2, if_pos h4, hd]
      · have h4 : ¬ (a.val < d * (t + 1) ∧ b.val = k) := by omega
        rw [if_neg h3, if_neg h2, if_neg h4]

/-- State of the loop over the columns in `ProjectG` after `t` columns. -/
theorem ProjectG_col_loop {r c : Nat} (G : Matrix (Fin r) (Fin c) α) (d L t : Nat)
    (ht : t ≤ c) (hL : d * L ≤ r) :
    forLoop t (fun k G => forLoop L (ProjectG.block (d : Int) k) G) G =
      fun a b => if a.val < d * L ∧ b.val < t
        then max floorEps (G a b) / blockSum G d (a.val / d) b.val else G a b := by
  induction t with
  | zero => simp [forLoop_zero]
  | succ t ih =>
    rw [forLoop_succ, ih (by omega)]
    rw [ProjectG_block_loop _ d t L (by omega) hL]
    funext a b
    beta_reduce
    by_cases h1 : a.val < d * L ∧ b.val = t
    · have h2 : ¬ (a.val < d * L ∧ b.val < t) := by omega
      have h3 : a.val < d * L ∧ b.val < t + 1 := by omega
      rw [if_pos h1, if_neg h2, if_pos h3, h1.2]
      congr 1
      apply blockSum_congr
      intro a' b' _ _ hb'
      have : ¬ (a'.val < d * L ∧ b'.val < t) := by omega
      rw [if_neg this]
    · rw [if_neg h1]
      by_cases h2 : a.val < d * L ∧ b.val < t
      · have h3 : a.val < d * L ∧ b.val < t + 1 := by omega
        rw [if_pos h2, if_pos h3]
      · have h3 : ¬ (a.val < d * L ∧ b.val < t + 1) := by omega
        rw [if_neg h2, if_neg h3]

/-- Closed form of `ProjectG` for a positive block size `d`: inside the `r / d` full
blocks every entry is floored at `1e-5` and divided by the sum of the floored entries
of its slice; rows after the last full block are left as they were. -/
theorem ProjectG_apply {r c : Nat} (G : Matrix (Fin r) (Fin c) α) (d : Nat)
    (a : Fin r) (b : Fin c) :
    ProjectG G (d : Int) a b =
      if a.val < d * (r / d) then max floorEps (G a b) / blockSum G d (a.val / d) b.val
      else G a b := by
  unfold ProjectG
  rw [← Int.ofNat_tdiv, Int.toNat_natCast,
    ProjectG_col_loop G d (r / d) c le_rfl (Nat.mul_div_le r d)]
  simp

/-! ## Properties of the projections -/

theorem floorEps_pos : (0 : α) < floorEps := by
  unfold floorEps; positivity

theorem floored_pos (x : α) : 0 < max floorEps x :=
  lt_of_lt_of_le floorEps_pos (le_max_left _ _)

theorem rowSum_pos {r c : Nat} (Q : Matrix (Fin r) (Fin c) α) (hc : 0 < c) (a : Fin r) :
    0 < ∑ j : Fin c, max floorEps (Q a j) := by
  haveI : Nonempty (Fin c) := ⟨⟨0, hc⟩⟩
  exact Finset.sum_pos (fun j _ => floored_pos _) Finset.univ_nonempty

theorem ProjectQ_pos {r c : Nat} (Q : Matrix (Fin r) (Fin c) α) (a : Fin r) (b : Fin c) :
    0 < ProjectQ Q a b := by
  rw [ProjectQ_apply]
  exact div_pos (floored_pos _) (rowSum_pos Q (Fin.pos b) a)

theorem ProjectQ_sum {r c : Nat} (Q : Matrix (Fin r) (Fin c) α) (hc : 0 < c) (a : Fin r) :
    ∑ b, ProjectQ Q a b = 1 := by
  simp only [ProjectQ_apply]
  rw [← Finset.sum_div, div_self (ne_of_gt (rowSum_pos Q hc a))]

theorem blockSum_pos {r c : Nat} (G : Matrix (Fin r) (Fin c) α) (d l k : Nat) (hd : 0 < d) :
    0 < blockSum G d l k :=
  Finset.sum_pos (fun j _ => floored_pos _) (Finset.nonempty_range_iff.mpr (by omega))

/-- Entry `j` of the slice (block `l`, column `k`) after `ProjectG`, for a full block. -/
theorem ProjectG_coeff_block {r c : Nat} (G : Matrix (Fin r) (Fin c) α) (d l j k : Nat)
    (hl : l < r / d) (hj : j < d) (hk : k < c) :
    coeff (ProjectG G (d : Int)) (d * l + j) k =
      max floorEps (coeff G (d * l + j) k) / blockSum G d l k := by
  have h1 : d * l + d ≤ d * (r / d) := by
    have : d * (l + 1) ≤ d * (r / d) := Nat.mul_le_mul_left d hl
    rw [Nat.mul_add, Nat.mul_one] at this
    exact this
  have h2 : d * (r / d) ≤ r := Nat.mul_div_le r d
  have hb : d * l + j < r ∧ k < c := ⟨by omega, hk⟩
  have hdiv : (d * l + j) / d = l :=
    Nat.div_eq_of_lt_le (by rw [Nat.mul_comm]; omega)
      (by rw [Nat.succ_mul, Nat.mul_comm]; omega)
  have hlt : d * l + j < d * (r / d) := by omega
  unfold coeff
  rw [dif_pos hb, dif_pos hb, ProjectG_apply]
  simp only [hlt, if_true, hdiv]

/-- C1. For every matrix with at least one column, every row of `ProjectQ Q` is
strictly positive entrywise and its entries sum to exactly 1. -/
theorem ProjectQ_row_positive_sum_one {r c : Nat} (Q : Matrix (Fin r) (Fin c) α)
    (hc : 0 < c) (a : Fin r) :
    (∀ b, 0 < ProjectQ Q a b) ∧ ∑ b, ProjectQ Q a b = 1 :=
  ⟨fun b => ProjectQ_pos Q a b, ProjectQ_sum Q hc a⟩

/-- Witness of C1 on the one-row matrix `(1, 0)`. -/
theorem ProjectQ_row_positive_sum_one_witness :
    0 < 2 ∧ ((∀ b, 0 < ProjectQ rowOneZero 0 b) ∧ ∑ b, ProjectQ rowOneZero 0 b = 1) :=
  ⟨by decide, ProjectQ_row_positive_sum_one rowOneZero (by decide) 0⟩

/-- C2, counterexample. On the row `(1, 0)` the second entry of the output is
`1/100001`, which is below `1e-5`. -/
theorem ProjectQ_entry_below_floor :
    ProjectQ rowOneZero 0 1 = 1 / 100001 ∧ ¬ ((1 : ℚ) / 100000 ≤ ProjectQ rowOneZero 0 1) := by
  have h : ProjectQ rowOneZero 0 1 = 1 / 100001 := by
    rw [ProjectQ_apply]
    simp [rowOneZero, Fin.sum_univ_two, floorEps]
    norm_num
  refine ⟨h, ?_⟩
  rw [h]
  norm_num

/-- C2, amended. Every entry of row `a` of `ProjectQ Q` is at least `1e-5` divided by the
sum of the floored entries of that row, hence at least `1e-5` when that sum is at
most 1. -/
theorem ProjectQ_entry_lower_bound {r c : Nat} (Q : Matrix (Fin r) (Fin c) α)
    (a : Fin r) (b : Fin c) :
    floorEps / (∑ j, max floorEps (Q a j)) ≤ ProjectQ Q a b ∧
      ((∑ j, max floorEps (Q a j)) ≤ 1 → floorEps ≤ ProjectQ Q a b) := by
  have hS := rowSum_pos Q (Fin.pos b) a
  have h1 : floorEps / (∑ j, max floorEps (Q a j)) ≤ ProjectQ Q a b := by
    rw [ProjectQ_apply]
    exact div_le_div_of_nonneg_right (le_max_left _ _) (le_of_lt hS)
  refine ⟨h1, fun hle => le_trans ?_ h1⟩
  rw [le_div_iff₀ hS]
  calc floorEps * ∑ j, max floorEps (Q a j) ≤ floorEps * 1 :=
        mul_le_mul_of_nonneg_left hle (le_of_lt floorEps_pos)
    _ = floorEps := mul_one _

/-- Witness of C2 (amended) on the one-row matrix `(1/2, 1/2)`. -/
theorem ProjectQ_entry_lower_bound_witness :
    (∑ j, max floorEps (rowHalves 0 j)) ≤ 1 ∧ (floorEps : ℚ) ≤ ProjectQ rowHalves 0 0 := by
  have h : (∑ j, max floorEps (rowHalves 0 j)) ≤ 1 := by
    simp [rowHalves, Fin.sum_univ_two, floorEps]
    norm_num
  exact ⟨h, (ProjectQ_entry_lower_bound rowHalves 0 0).2 h⟩

/-- C3. For every matrix `G` and every positive block size `D` dividing the row count,
after `ProjectG G D` the `D` entries in rows `D*l .. D*l+D-1` of column `k` sum to
exactly 1, for every block `l < rows / D` and every column `k`. -/
theorem ProjectG_block_sum_one {r c : Nat} (G : Matrix (Fin r) (Fin c) α) (D : Int)
    (hD : 0 < D) (_hdiv : D ∣ (r : Int)) (l : Nat) (hl : (l : Int) < Int.tdiv (r : Int) D)
    (k : Fin c) :
    ∑ j in Finset.range D.toNat, coeff (ProjectG G D) (D * l + j).toNat k.val = 1 := by
  obtain ⟨d, rfl⟩ := Int.eq_ofNat_of_zero_le (le_of_lt hD)
  have hd : 0 < d := by exact_mod_cast hD
  have hl' : l < r / d := by
    rw [← Int.ofNat_tdiv] at hl
    exact_mod_cast hl
  rw [Int.toNat_natCast]
  have step : ∀ j ∈ Finset.range d,
      coeff (ProjectG G (d : Int)) ((d : Int) * l + j).toNat k.val =
        max floorEps (coeff G (d * l + j) k.val) / blockSum G d l k.val := by
    intro j hj
    rw [toNat_index, ProjectG_coeff_block G d l j k.val hl' (Finset.mem_range.mp hj) k.isLt]
  rw [Finset.sum_congr rfl step, ← Finset.sum_div]
  exact div_self (ne_of_gt (blockSum_pos G d l k.val hd))

/-- Witness of C3 on the one-column matrix with entries `1, 0` and block size 2. -/
theorem ProjectG_block_sum_one_witness :
    (0 : Int) < 2 ∧ (2 : Int) ∣ ((2 : Nat) : Int) ∧
      ((0 : Nat) : Int) < Int.tdiv ((2 : Nat) : Int) 2 ∧
      ∑ j in Finset.range (2 : Int).toNat,
        coeff (ProjectG colOneZero 2) ((2 : Int) * (0 : Nat) + j).toNat (0 : Fin 1).val = 1 :=
  ⟨by decide, by decide, by decide,
    ProjectG_block_sum_one colOneZero 2 (by decide) (by decide) 0 (by decide) 0⟩

/-- C4, counterexample. On the row `(1, 0)` a second `ProjectQ` changes the matrix:
the entry `1/100001` left by the first pass is floored again. -/
theorem ProjectQ_not_idempotent :
    ProjectQ (ProjectQ rowOneZero) ≠ ProjectQ rowOneZero := by
  intro h
  have h1 := congrFun (congrFun h 0) 1
  rw [ProjectQ_apply (ProjectQ rowOneZero)] at h1
  simp only [ProjectQ_apply rowOneZero] at h1
  simp [rowOneZero, Fin.sum_univ_two, floorEps] at h1
  norm_num at h1

/-- C4, amended. When every entry of `ProjectQ Q` is at least `1e-5`, a second
`ProjectQ` leaves it unchanged. -/
theorem ProjectQ_idempotent_of_floor_le {r c : Nat} (Q : Matrix (Fin r) (Fin c) α)
    (h : ∀ a b, floorEps ≤ ProjectQ Q a b) : ProjectQ (ProjectQ Q) = ProjectQ Q := by
  funext a b
  rw [ProjectQ_apply (ProjectQ Q)]
  have hmax : ∀ j, max floorEps (ProjectQ Q a j) = ProjectQ Q a j :=
    fun j => max_eq_right (h a j)
  simp only [hmax]
  rw [ProjectQ_sum Q (Fin.pos b) a, div_one]

/-- Witness of C4 (amended) on the one-row matrix `(1/2, 1/2)`. -/
theorem ProjectQ_idempotent_of_floor_le_witness :
    (∀ a b, (floorEps : ℚ) ≤ ProjectQ rowHalves a b) ∧
      ProjectQ (ProjectQ rowHalves) = ProjectQ rowHalves := by
  have h : ∀ a b, (floorEps : ℚ) ≤ ProjectQ rowHalves a b := by
    intro a b
    rw [ProjectQ_apply]
    fin_cases a
    fin_cases b <;> simp [rowHalves, Fin.sum_univ_two, floorEps] <;> norm_num
  exact ⟨h, ProjectQ_idempotent_of_floor_le rowHalves h⟩

/-! ## The regularization weight -/

theorem foldl_max_ge_init (l : List α) (a : α) : a ≤ l.foldl max a := by
  induction l generalizing a with
  | nil => exact le_rfl
  | cons x xs ih => exact le_trans (le_max_left a x) (ih (max a x))

theorem foldl_max_ge_mem (l : List α) (a : α) : ∀ x ∈ l, x ≤ l.foldl max a := by
  induction l generalizing a with
  | nil => intro x hx; cases hx
  | cons y ys ih =>
    intro x hx
    rcases List.mem_cons.mp hx with rfl | h
    · exact le_trans (le_max_right a x) (foldl_max_ge_init ys (max a x))
    · exact ih (max a y) x h

theorem foldl_max_mem (l : List α) (a : α) : l.foldl max a = a ∨ l.foldl max a ∈ l := by
  induction l generalizing a with
  | nil => exact Or.inl rfl
  | cons y ys ih =>
    rcases ih (max a y) with h | h
    · rcases max_choice a y with h2 | h2
      · left; rw [List.foldl_cons, h, h2]
      · right; rw [List.foldl_cons, h, h2]; exact List.mem_cons_self _ _
    · right; exact List.mem_cons_of_mem _ h

/-- On a non-empty vector `maxCoeff` is an upper bound of the entries. -/
theorem le_maxCoeff {n : Nat} (v : Fin n → α) (i : Fin n) : v i ≤ maxCoeff v := by
  cases n with
  | zero => exact i.elim0
  | succ n =>
    exact foldl_max_ge_mem (List.ofFn v) (v 0) (v i) ((List.mem_ofFn v (v i)).mpr ⟨i, rfl⟩)

/-- On a non-empty vector `maxCoeff` is one of the entries. -/
theorem maxCoeff_mem {n : Nat} (v : Fin n → α) (hn : 0 < n) : ∃ i, v i = maxCoeff v := by
  cases n with
  | zero => omega
  | succ n =>
    rcases foldl_max_mem (List.ofFn v) (v 0) with h | h
    · exact ⟨0, h.symm⟩
    · obtain ⟨i, hi⟩ := (List.mem_ofFn v _).mp h
      exact ⟨i, hi⟩

theorem wrapInt_of_range (x : Int) (h0 : 0 ≤ x) (h1 : x < 2147483648) : wrapInt x = x := by
  unfold wrapInt; omega

/-- C5. With `vpMax = maxCoeff vps` the largest eigenvalue, the weight computed at
solve start is `lambdaPrim * (D*L*n) / (K*n*vpMax)` when `vpMax ≠ 0` and `0` when
`vpMax = 0`, for positive `D`, `L = X.cols() / D`, `n`, `K`; the products are the ones
the code forms in `int`, and they are the exact products when those fit in an `int`. -/
theorem solverLambda_formula {n m K : Nat} (lib : EigenLib α n K)
    (X : Matrix (Fin n) (Fin m) α) (Lapl : Matrix (Fin n) (Fin n) α) (lambdaPrim : α)
    (D : Int) (hD : 0 < D) (hL : 0 < Int.tdiv (m : Int) D) (hn : 0 < n) (_hK : 0 < K) :
    (∀ i, lib.eigenvalues Lapl i ≤ maxCoeff (lib.eigenvalues Lapl)) ∧
    (∃ i, lib.eigenvalues Lapl i = maxCoeff (lib.eigenvalues Lapl)) ∧
    (maxCoeff (lib.eigenvalues Lapl) ≠ 0 →
      solverLambda lib X Lapl lambdaPrim D =
        lambdaPrim * ((intMul (intMul D (Int.tdiv (m : Int) D)) (n : Int) : Int) : α) /
          (((intMul (K : Int) (n : Int) : Int) : α) * maxCoeff (lib.eigenvalues Lapl))) ∧
    (maxCoeff (lib.eigenvalues Lapl) = 0 → solverLambda lib X Lapl lambdaPrim D = 0) ∧
    (maxCoeff (lib.eigenvalues Lapl) ≠ 0 →
      D * Int.tdiv (m : Int) D * (n : Int) < 2147483648 →
      (K : Int) * (n : Int) < 2147483648 →
      solverLambda lib X Lapl lambdaPrim D =
        lambdaPrim * ((D : α) * ((Int.tdiv (m : Int) D : Int) : α) * (n : α)) /
          ((K : α) * (n : α) * maxCoeff (lib.eigenvalues Lapl))) := by
  refine ⟨le_maxCoeff _, maxCoeff_mem _ hn, ?_, ?_, ?_⟩
  · intro h
    simp only [solverLambda, lambdaOf, h, ne_eq, not_false_eq_true, if_true]
  · intro h
    simp only [solverLambda, lambdaOf, h, ne_eq, not_true_eq_false, if_false]
  · intro h h1 h2
    have hn' : (1 : Int) ≤ (n : Int) := by exact_mod_cast hn
    have hDL : 0 < D * Int.tdiv (m : Int) D := mul_pos hD hL
    have hDL' : D * Int.tdiv (m : Int) D ≤ D * Int.tdiv (m : Int) D * (n : Int) :=
      le_mul_of_one_le_right (le_of_lt hDL) hn'
    have e1 : intMul D (Int.tdiv (m : Int) D) = D * Int.tdiv (m : Int) D :=
      wrapInt_of_range _ (le_of_lt hDL) (lt_of_le_of_lt hDL' h1)
    have e2 : intMul (D * Int.tdiv (m : Int) D) (n : Int) = D * Int.tdiv (m : Int) D * (n : Int) :=
      wrapInt_of_range _ (le_trans (le_of_lt hDL) hDL') h1
    have e3 : intMul (K : Int) (n : Int) = (K : Int) * (n : Int) :=
      wrapInt_of_range _ (mul_nonneg (Int.natCast_nonneg K) (Int.natCast_nonneg n)) h2
    simp only [solverLambda, lambdaOf, h, ne_eq, not_false_eq_true, if_true, e1, e2, e3]
    push_cast
    rfl

/-- Witness of C5: `n = m = K = D = 1`, Laplacian `(2)`, `lambdaPrim = 3`. -/
theorem solverLambda_formula_witness :
    (0 : Int) < 1 ∧ (0 : Int) < Int.tdiv ((1 : Nat) : Int) 1 ∧ 0 < 1 ∧ 0 < 1 ∧
      solverLambda lib1 (mat1 1) (mat1 2) 3 1 = 3 / 2 := by
  have h := solverLambda_formula lib1 (mat1 1) (mat1 2) 3 1
    (by decide) (by decide) (by decide) (by decide)
  have hv : maxCoeff (lib1.eigenvalues (mat1 2)) = 2 := by
    simp [maxCoeff, lib1, mat1]
  refine ⟨by decide, by decide, by decide, by decide, ?_⟩
  rw [h.2.2.2.2 (by rw [hv]; norm_num) (by decide) (by decide), hv]
  norm_num

/-! ## The main loop -/

/-- The loop runs the body some `N ≤ fuel` times: the test holds before each of the
`N` passes, and fails after the last one unless the fuel is used up. -/
theorem mainLoop_run {σ : Type} (cond : σ → Bool) (body : σ → σ) (fuel : Nat) (st : σ) :
    ∃ N, N ≤ fuel ∧ mainLoop cond body fuel st = body^[N] st ∧
      (∀ s, s < N → cond (body^[s] st) = true) ∧
      (N < fuel → cond (body^[N] st) = false) := by
  induction fuel generalizing st with
  | zero => exact ⟨0, le_rfl, rfl, fun s hs => absurd hs (Nat.not_lt_zero s), fun h => absurd h (lt_irrefl 0)⟩
  | succ fuel ih =>
    by_cases hc : cond st = true
    · obtain ⟨N, hN, hrun, hbefore, hafter⟩ := ih (body st)
      refine ⟨N + 1, by omega, ?_, ?_, ?_⟩
      · rw [mainLoop, if_pos hc, hrun, Function.iterate_succ_apply]
      · intro s hs
        cases s with
        | zero => exact hc
        | succ s =>
          rw [Function.iterate_succ_apply]
          exact hbefore s (by omega)
      · intro h
        rw [Function.iterate_succ_apply]
        exact hafter (by omega)
    · refine ⟨0, by omega, ?_, fun s hs => absurd hs (Nat.not_lt_zero s), fun _ => ?_⟩
      · rw [mainLoop, if_neg hc]; rfl
      · simpa using hc

/-- Two loops whose states stay related, with equal tests on related states, end in
related states. -/
theorem mainLoop_rel {σ τ : Type} (rel : σ → τ → Prop) (cond : σ → Bool) (cond' : τ → Bool)
    (body : σ → σ) (body' : τ → τ)
    (hcond : ∀ s s', rel s s' → cond s = cond' s')
    (hbody : ∀ s s', rel s s' → rel (body s) (body' s'))
    (fuel : Nat) (s : σ) (s' : τ) (h : rel s s') :
    rel (mainLoop cond body fuel s) (mainLoop cond' body' fuel s') := by
  induction fuel generalizing s s' with
  | zero => exact h
  | succ fuel ih =>
    rw [mainLoop, mainLoop, ← hcond s s' h]
    by_cases hc : cond s = true
    · rw [if_pos hc, if_pos hc]
      exact ih _ _ (hbody s s' h)
    · rw [if_neg hc, if_neg hc]
      exact h

theorem ComputeMCPASolution_eq {n m K : Nat} (lib : EigenLib α n K)
    (X : Matrix (Fin n) (Fin m) α) (Lapl : Matrix (Fin n) (Fin n) α) (lambdaPrim : α)
    (D : Int) (maxIteration : Int) (tolerance : α) (Q : Matrix (Fin n) (Fin K) α)
    (G : Matrix (Fin m) (Fin K) α) :
    ComputeMCPASolution lib X Lapl lambdaPrim D maxIteration tolerance Q G =
      mainLoop (loopCond maxIteration)
        (iteration lib X D tolerance (lib.eigenvalues Lapl) (lib.eigenvectors Lapl)ᵀ
          ((lib.eigenvectors Lapl)ᵀ * X) (solverLambda lib X Lapl lambdaPrim D))
        maxIteration.toNat (initState Q G) := rfl

theorem iterates_zero {n m K : Nat} (lib : EigenLib α n K)
    (X : Matrix (Fin n) (Fin m) α) (Lapl : Matrix (Fin n) (Fin n) α) (lambdaPrim : α)
    (D : Int) (tolerance : α) (Q : Matrix (Fin n) (Fin K) α) (G : Matrix (Fin m) (Fin K) α) :
    iterates lib X Lapl lambdaPrim D tolerance Q G 0 = initState Q G := rfl

theorem iterates_succ {n m K : Nat} (lib : EigenLib α n K)
    (X : Matrix (Fin n) (Fin m) α) (Lapl : Matrix (Fin n) (Fin n) α) (lambdaPrim : α)
    (D : Int) (tolerance : α) (Q : Matrix (Fin n) (Fin K) α) (G : Matrix (Fin m) (Fin K) α)
    (t : Nat) :
    iterates lib X Lapl lambdaPrim D tolerance Q G (t + 1) =
      iteration lib X D tolerance (lib.eigenvalues Lapl) (lib.eigenvectors Lapl)ᵀ
        ((lib.eigenvectors Lapl)ᵀ * X) (solverLambda lib X Lapl lambdaPrim D)
        (iterates lib X Lapl lambdaPrim D tolerance Q G t) := by
  unfold iterates
  rw [Function.iterate_succ_apply']

theorem iterates_it {n m K : Nat} (lib : EigenLib α n K)
    (X : Matrix (Fin n) (Fin m) α) (Lapl : Matrix (Fin n) (Fin n) α) (lambdaPrim : α)
    (D : Int) (tolerance : α) (Q : Matrix (Fin n) (Fin K) α) (G : Matrix (Fin m) (Fin K) α)
    (t : Nat) : (iterates lib X Lapl lambdaPrim D tolerance Q G t).it = (t : Int) := by
  induction t with
  | zero => rfl
  | succ t ih =>
    rw [iterates_succ]
    simp only [iteration, ih]
    push_cast
    rfl

theorem iterates_converg {n m K : Nat} (lib : EigenLib α n K)
    (X : Matrix (Fin n) (Fin m) α) (Lapl : Matrix (Fin n) (Fin n) α) (lambdaPrim : α)
    (D : Int) (tolerance : α) (Q : Matrix (Fin n) (Fin K) α) (G : Matrix (Fin m) (Fin K) α)
    (t : Nat) :
    (iterates lib X Lapl lambdaPrim D tolerance Q G (t + 1)).converg =
      decide (|(iterates lib X Lapl lambdaPrim D tolerance Q G (t + 1)).err -
        (iterates lib X Lapl lambdaPrim D tolerance Q G t).err| < tolerance) := by
  rw [iterates_succ]
  rfl

/-- The run of `ComputeMCPASolution` as a number `N` of passes of the body. -/
theorem ComputeMCPASolution_run {n m K : Nat} (lib : EigenLib α n K)
    (X : Matrix (Fin n) (Fin m) α) (Lapl : Matrix (Fin n) (Fin n) α) (lambdaPrim : α)
    (D : Int) (maxIteration : Int) (tolerance : α) (Q : Matrix (Fin n) (Fin K) α)
    (G : Matrix (Fin m) (Fin K) α) :
    ∃ N : Nat, N ≤ maxIteration.toNat ∧
      ComputeMCPASolution lib X Lapl lambdaPrim D maxIteration tolerance Q G =
        iterates lib X Lapl lambdaPrim D tolerance Q G N ∧
      (∀ s, s < N →
        (iterates lib X Lapl lambdaPrim D tolerance Q G s).converg = false) ∧
      (N < maxIteration.toNat →
        (iterates lib X Lapl lambdaPrim D tolerance Q G N).converg = true) := by
  obtain ⟨N, hN, hrun, hbefore, hafter⟩ := mainLoop_run (loopCond maxIteration)
    (iteration lib X D tolerance (lib.eigenvalues Lapl) (lib.eigenvectors Lapl)ᵀ
      ((lib.eigenvectors Lapl)ᵀ * X) (solverLambda lib X Lapl lambdaPrim D))
    maxIteration.toNat (initState Q G)
  refine ⟨N, hN, by rw [ComputeMCPASolution_eq, hrun]; rfl, ?_, ?_⟩
  · intro s hs
    have h := hbefore s hs
    change loopCond maxIteration (iterates lib X Lapl lambdaPrim D tolerance Q G s) = true at h
    simp only [loopCond, Bool.and_eq_true, Bool.not_eq_true', decide_eq_true_eq] at h
    exact h.1
  · intro hlt
    have h := hafter hlt
    change loopCond maxIteration (iterates lib X Lapl lambdaPrim D tolerance Q G N) = false at h
    have hit : (iterates lib X Lapl lambdaPrim D tolerance Q G N).it < maxIteration := by
      rw [iterates_it]; omega
    simp only [loopCond, hit, decide_True, Bool.and_true, Bool.not_eq_false'] at h
    exact h

/-! ## The two phases of an iteration -/

/-- A loop that assigns row `j` at pass `j` has assigned the first `t` rows after `t`
passes. -/
theorem setRow_loop {r c : Nat} (f : Nat → Fin c → α) (M : Matrix (Fin r) (Fin c) α) (t : Nat) :
    forLoop t (fun j M => setRow M j (f j)) M =
      fun a b => if a.val < t then f a.val b else M a b := by
  induction t with
  | zero => simp [forLoop_zero]
  | succ t ih =>
    rw [forLoop_succ, ih]
    funext a b
    simp only [setRow]
    by_cases h1 : a.val = t
    · simp [h1]
    · by_cases h2 : a.val < t
      · have : a.val < t + 1 := by omega
        simp [h1, h2, this]
      · have : ¬ a.val < t + 1 := by omega
        simp [h1, h2, this]

theorem colAt_val {r c : Nat} (M : Matrix (Fin r) (Fin c) α) (j : Fin c) :
    colAt M j.val = fun i => M i j := by
  funext i
  exact coeff_eq M i j

theorem rowAt_val {r c : Nat} (M : Matrix (Fin r) (Fin c) α) (i : Fin r) :
    rowAt M i.val = M i := by
  funext b
  exact coeff_eq M i b

theorem vecAt_val {n : Nat} (v : Fin n → α) (i : Fin n) : vecAt v i.val = v i := by
  simp [vecAt]

/-- Phase A before the projection: every row `j` of `G` is overwritten by the solve of
the normal equations for column `j` of `X`. -/
theorem updateG_apply {n m K : Nat} (lib : EigenLib α n K) (X : Matrix (Fin n) (Fin m) α)
    (Q : Matrix (Fin n) (Fin K) α) (G : Matrix (Fin m) (Fin K) α) (j : Fin m) :
    updateG lib X Q G j = lib.ldltSolve (Qᵀ * Q) (Qᵀ *ᵥ fun i => X i j) := by
  unfold updateG
  rw [setRow_loop (fun j => lib.ldltSolve (Qᵀ * Q) (Qᵀ *ᵥ colAt X j)) G m]
  funext k
  simp only [j.isLt, if_true, colAt_val]

/-- Phase B before the back-transform: every row `i` of `RQ` is overwritten by the
solve of the ridge system for row `i` of `RX`. -/
theorem updateRQ_apply {n m K : Nat} (lib : EigenLib α n K) (lambda : α) (vps : Fin n → α)
    (G : Matrix (Fin m) (Fin K) α) (RX : Matrix (Fin n) (Fin m) α)
    (RQ : Matrix (Fin n) (Fin K) α) (i : Fin n) :
    updateRQ lib lambda vps G RX RQ i =
      lib.ldltSolve (Gᵀ * G + (lambda * vps i) • (1 : Matrix (Fin K) (Fin K) α))
        (Gᵀ *ᵥ RX i) := by
  unfold updateRQ
  rw [setRow_loop (fun i => lib.ldltSolve
    (Gᵀ * G + (lambda * vecAt vps i) • (1 : Matrix (Fin K) (Fin K) α)) (Gᵀ *ᵥ rowAt RX i)) RQ n]
  funext k
  simp only [i.isLt, if_true, vecAt_val, rowAt_val]

theorem rowAt_setRow_zero {c : Nat} (M : Matrix (Fin 1) (Fin c) α) (v : Fin c → α) :
    rowAt (setRow M 0 v) 0 = v := by
  funext b
  simp [rowAt, setRow, coeff]

theorem rowAt_mul {n m : Nat} (R : Matrix (Fin n) (Fin n) α) (X : Matrix (Fin n) (Fin m) α)
    (i : Nat) : rowAt (R * X) i = rowAt R i ᵥ* X := by
  funext b
  unfold rowAt coeff
  by_cases h : i < n
  · simp [h, Matrix.mul_apply, Matrix.vecMul, Matrix.dotProduct]
  · simp [h, Matrix.vecMul, Matrix.dotProduct]

/-- The row loop of `ComputeMCPASolutionNoCopyX` leaves in `RQ` what the row loop of
`ComputeMCPASolution` leaves with `RX = R * X`. -/
theorem updateRQNoCopyX_fst {n m K : Nat} (lib : EigenLib α n K) (lambda : α)
    (vps : Fin n → α) (G : Matrix (Fin m) (Fin K) α) (R : Matrix (Fin n) (Fin n) α)
    (X : Matrix (Fin n) (Fin m) α) (RQ : Matrix (Fin n) (Fin K) α)
    (RXi : Matrix (Fin 1) (Fin m) α) :
    (updateRQNoCopyX lib lambda vps G R X (RQ, RXi)).1 = updateRQ lib lambda vps G (R * X) RQ := by
  unfold updateRQNoCopyX updateRQ
  simp only [rowAt_setRow_zero, rowAt_mul]
  have key : ∀ t : Nat,
      (forLoop t (fun i (st : Matrix (Fin n) (Fin K) α × Matrix (Fin 1) (Fin m) α) =>
        (setRow st.1 i
          (lib.ldltSolve (Gᵀ * G + (lambda * vecAt vps i) • (1 : Matrix (Fin K) (Fin K) α))
            (Gᵀ *ᵥ rowAt R i ᵥ* X)),
          setRow st.2 0 (rowAt R i ᵥ* X))) (RQ, RXi)).1 =
      forLoop t (fun i RQ => setRow RQ i
        (lib.ldltSolve (Gᵀ * G + (lambda * vecAt vps i) • (1 : Matrix (Fin K) (Fin K) α))
          (Gᵀ *ᵥ rowAt R i ᵥ* X))) RQ := by
    intro t
    induction t with
    | zero => rfl
    | succ t ih =>
      rw [forLoop_succ, forLoop_succ]
      simp only
      rw [ih]
  exact key n

theorem ProjectQ_rowSimplex {r c : Nat} (Q : Matrix (Fin r) (Fin c) α) (hc : 0 < c) :
    RowSimplex (ProjectQ Q) :=
  fun a => ⟨fun b => ProjectQ_pos Q a b, ProjectQ_sum Q hc a⟩

theorem ProjectG_blockSimplex {r c : Nat} (G : Matrix (Fin r) (Fin c) α) (D : Int)
    (hD : 0 < D) : BlockSimplex (ProjectG G D) D := by
  obtain ⟨d, rfl⟩ := Int.eq_ofNat_of_zero_le (le_of_lt hD)
  have hd : 0 < d := by exact_mod_cast hD
  intro l hl k
  have hl' : l < r / d := by
    rw [← Int.ofNat_tdiv] at hl
    exact_mod_cast hl
  rw [Int.toNat_natCast]
  have step : ∀ j, j < d →
      coeff (ProjectG G (d : Int)) ((d : Int) * l + j).toNat k.val =
        max floorEps (coeff G (d * l + j) k.val) / blockSum G d l k.val := by
    intro j hj
    rw [toNat_index, ProjectG_coeff_block G d l j k.val hl' hj k.isLt]
  refine ⟨fun j hj => ?_, ?_⟩
  · rw [step j hj]
    exact div_pos (floored_pos _) (blockSum_pos G d l k.val hd)
  · rw [Finset.sum_congr rfl (fun j hj => step j (Finset.mem_range.mp hj)), ← Finset.sum_div]
    exact div_self (ne_of_gt (blockSum_pos G d l k.val hd))

/-- Every pass of the loop body ends with `Q` and `G` on their simplices. -/
theorem iteration_simplex {n m K : Nat} (lib : EigenLib α n K) (X : Matrix (Fin n) (Fin m) α)
    (D : Int) (tolerance : α) (vps : Fin n → α) (R : Matrix (Fin n) (Fin n) α)
    (RX : Matrix (Fin n) (Fin m) α) (lambda : α) (st : SolverState α n m K)
    (hK : 0 < K) (hD : 0 < D) :
    RowSimplex (iteration lib X D tolerance vps R RX lambda st).Q ∧
      BlockSimplex (iteration lib X D tolerance vps R RX lambda st).G D :=
  ⟨ProjectQ_rowSimplex _ hK, ProjectG_blockSimplex _ D hD⟩

theorem iterates_simplex {n m K : Nat} (lib : EigenLib α n K)
    (X : Matrix (Fin n) (Fin m) α) (Lapl : Matrix (Fin n) (Fin n) α) (lambdaPrim : α)
    (D : Int) (tolerance : α) (Q : Matrix (Fin n) (Fin K) α) (G : Matrix (Fin m) (Fin K) α)
    (hK : 0 < K) (hD : 0 < D) (t : Nat) (ht : 1 ≤ t) :
    RowSimplex (iterates lib X Lapl lambdaPrim D tolerance Q G t).Q ∧
      BlockSimplex (iterates lib X Lapl lambdaPrim D tolerance Q G t).G D := by
  obtain ⟨t', rfl⟩ : ∃ t', t = t' + 1 := ⟨t - 1, by omega⟩
  rw [iterates_succ]
  exact iteration_simplex lib X D tolerance _ _ _ _ _ hK hD

/-- C6. With `maxIteration ≥ 1`, `K ≥ 1` and `D > 0` dividing the row count of `G`, the
loop of `ComputeMCPASolution` runs `N ≥ 1` passes; at return every row of `Q` is
positive and sums to 1 and every slice (block of `D` rows, column) of `G` is positive
and sums to 1, and the same holds at the end of each of the `N` passes. -/
theorem ComputeMCPASolution_simplex {n m K : Nat} (lib : EigenLib α n K)
    (X : Matrix (Fin n) (Fin m) α) (Lapl : Matrix (Fin n) (Fin n) α) (lambdaPrim : α)
    (D : Int) (maxIteration : Int) (tolerance : α) (Q : Matrix (Fin n) (Fin K) α)
    (G : Matrix (Fin m) (Fin K) α)
    (hmax : 1 ≤ maxIteration) (hK : 1 ≤ K) (hD : 0 < D) (_hdiv : D ∣ (m : Int)) :
    ∃ N : Nat, 1 ≤ N ∧
      ComputeMCPASolution lib X Lapl lambdaPrim D maxIteration tolerance Q G =
        iterates lib X Lapl lambdaPrim D tolerance Q G N ∧
      RowSimplex (ComputeMCPASolution lib X Lapl lambdaPrim D maxIteration tolerance Q G).Q ∧
      BlockSimplex (ComputeMCPASolution lib X Lapl lambdaPrim D maxIteration tolerance Q G).G D ∧
      ∀ t, 1 ≤ t → t ≤ N →
        RowSimplex (iterates lib X Lapl lambdaPrim D tolerance Q G t).Q ∧
          BlockSimplex (iterates lib X Lapl lambdaPrim D tolerance Q G t).G D := by
  obtain ⟨N, _, hrun, _, hafter⟩ :=
    ComputeMCPASolution_run lib X Lapl lambdaPrim D maxIteration tolerance Q G
  have hN : 1 ≤ N := by
    by_contra hlt
    have h0 : N = 0 := by omega
    subst h0
    have := hafter (by omega)
    rw [iterates_zero] at this
    simp [initState] at this
  have hall := fun t ht => iterates_simplex lib X Lapl lambdaPrim D tolerance Q G hK hD t ht
  refine ⟨N, hN, hrun, ?_, ?_, fun t ht _ => hall t ht⟩
  · rw [hrun]; exact (hall N hN).1
  · rw [hrun]; exact (hall N hN).2

/-- Witness of C6 on `1 × 1` matrices with `maxIteration = 1`, `K = 1`, `D = 1`. -/
theorem ComputeMCPASolution_simplex_witness :
    (1 : Int) ≤ 1 ∧ 1 ≤ 1 ∧ (0 : Int) < 1 ∧ (1 : Int) ∣ ((1 : Nat) : Int) ∧
    ∃ N : Nat, 1 ≤ N ∧
      ComputeMCPASolution lib1 (mat1 1) (mat1 0) 0 1 1 1 (mat1 1) (mat1 1) =
        iterates lib1 (mat1 1) (mat1 0) 0 1 1 (mat1 1) (mat1 1) N ∧
      RowSimplex (ComputeMCPASolution lib1 (mat1 1) (mat1 0) 0 1 1 1 (mat1 1) (mat1 1)).Q ∧
      BlockSimplex (ComputeMCPASolution lib1 (mat1 1) (mat1 0) 0 1 1 1 (mat1 1) (mat1 1)).G 1 ∧
      ∀ t, 1 ≤ t → t ≤ N →
        RowSimplex (iterates lib1 (mat1 1) (mat1 0) 0 1 1 (mat1 1) (mat1 1) t).Q ∧
          BlockSimplex (iterates lib1 (mat1 1) (mat1 0) 0 1 1 (mat1 1) (mat1 1) t).G 1 :=
  ⟨by decide, by decide, by decide, by decide,
    ComputeMCPASolution_simplex lib1 (mat1 1) (mat1 0) 0 1 1 1 (mat1 1) (mat1 1)
      (by decide) (by decide) (by decide) (by decide)⟩

/-- The final state of `ComputeMCPASolutionNoCopyX` is the final state of
`ComputeMCPASolution`. -/
theorem NoCopyX_state_eq {n m K : Nat} (lib : EigenLib α n K)
    (X : Matrix (Fin n) (Fin m) α) (Lapl : Matrix (Fin n) (Fin n) α) (lambdaPrim : α)
    (D : Int) (maxIteration : Int) (tolerance : α) (Q : Matrix (Fin n) (Fin K) α)
    (G : Matrix (Fin m) (Fin K) α) (RXi0 : Matrix (Fin 1) (Fin m) α) :
    ComputeMCPASolution lib X Lapl lambdaPrim D maxIteration tolerance Q G =
      ComputeMCPASolutionNoCopyX lib X Lapl lambdaPrim D maxIteration tolerance Q G RXi0 := by
  unfold ComputeMCPASolution ComputeMCPASolutionNoCopyX
  refine mainLoop_rel
    (fun (s : SolverState α n m K) (s' : SolverState α n m K × Matrix (Fin 1) (Fin m) α) =>
      s = s'.1) _ _ _ _ ?_ ?_ _ _ _ rfl
  · intro s s' h
    rw [h]
  · intro s s' h
    subst h
    simp only [iteration, iterationNoCopyX, updateRQNoCopyX_fst]

/-- C7. On identical inputs and identical initial `Q` and `G`, `ComputeMCPASolution`
and `ComputeMCPASolutionNoCopyX` run the same number of iterations and leave the
same `Q` and the same `G`, whatever the scratch row `RXi` holds at entry. -/
theorem variants_agree {n m K : Nat} (lib : EigenLib α n K)
    (X : Matrix (Fin n) (Fin m) α) (Lapl : Matrix (Fin n) (Fin n) α) (lambdaPrim : α)
    (D : Int) (maxIteration : Int) (tolerance : α) (Q : Matrix (Fin n) (Fin K) α)
    (G : Matrix (Fin m) (Fin K) α) (RXi0 : Matrix (Fin 1) (Fin m) α) :
    (ComputeMCPASolutionNoCopyX lib X Lapl lambdaPrim D maxIteration tolerance Q G RXi0).it =
        (ComputeMCPASolution lib X Lapl lambdaPrim D maxIteration tolerance Q G).it ∧
      (ComputeMCPASolutionNoCopyX lib X Lapl lambdaPrim D maxIteration tolerance Q G RXi0).Q =
        (ComputeMCPASolution lib X Lapl lambdaPrim D maxIteration tolerance Q G).Q ∧
      (ComputeMCPASolutionNoCopyX lib X Lapl lambdaPrim D maxIteration tolerance Q G RXi0).G =
        (ComputeMCPASolution lib X Lapl lambdaPrim D maxIteration tolerance Q G).G := by
  rw [← NoCopyX_state_eq lib X Lapl lambdaPrim D maxIteration tolerance Q G RXi0]
  exact ⟨rfl, rfl, rfl⟩

/-! ## The stopping rule -/

theorem norm_nonneg_of_sqrt {n K r c : Nat} (lib : EigenLib α n K)
    (hsqrt : ∀ x, 0 ≤ x → 0 ≤ lib.sqrt x) (M : Matrix (Fin r) (Fin c) α) : 0 ≤ norm lib M :=
  hsqrt _ (Finset.sum_nonneg fun i _ => Finset.sum_nonneg fun j _ => mul_self_nonneg (M i j))

theorem residual_nonneg {n m K : Nat} (lib : EigenLib α n K)
    (hsqrt : ∀ x, 0 ≤ x → 0 ≤ lib.sqrt x) (X : Matrix (Fin n) (Fin m) α)
    (Q : Matrix (Fin n) (Fin K) α) (G : Matrix (Fin m) (Fin K) α) : 0 ≤ residual lib X Q G :=
  div_nonneg (norm_nonneg_of_sqrt lib hsqrt _) (norm_nonneg_of_sqrt lib hsqrt _)

theorem iterates_err_succ {n m K : Nat} (lib : EigenLib α n K)
    (X : Matrix (Fin n) (Fin m) α) (Lapl : Matrix (Fin n) (Fin n) α) (lambdaPrim : α)
    (D : Int) (tolerance : α) (Q : Matrix (Fin n) (Fin K) α) (G : Matrix (Fin m) (Fin K) α)
    (t : Nat) :
    (iterates lib X Lapl lambdaPrim D tolerance Q G (t + 1)).err =
      residual lib X (iterates lib X Lapl lambdaPrim D tolerance Q G (t + 1)).Q
        (iterates lib X Lapl lambdaPrim D tolerance Q G (t + 1)).G := by
  rw [iterates_succ]
  rfl

/-- After the first pass the flag `converg` is false when `tolerance ≤ 10`: the
residual is non-negative and `err` was `-10`. -/
theorem iterates_one_converg {n m K : Nat} (lib : EigenLib α n K)
    (hsqrt : ∀ x, 0 ≤ x → 0 ≤ lib.sqrt x)
    (X : Matrix (Fin n) (Fin m) α) (Lapl : Matrix (Fin n) (Fin n) α) (lambdaPrim : α)
    (D : Int) (tolerance : α) (Q : Matrix (Fin n) (Fin K) α) (G : Matrix (Fin m) (Fin K) α)
    (htol : tolerance ≤ 10) :
    (iterates lib X Lapl lambdaPrim D tolerance Q G 1).converg = false := by
  rw [iterates_converg, iterates_err_succ, iterates_zero]
  have h := residual_nonneg lib hsqrt X
    (iterates lib X Lapl lambdaPrim D tolerance Q G (0 + 1)).Q
    (iterates lib X Lapl lambdaPrim D tolerance Q G (0 + 1)).G
  simp only [initState, sub_neg_eq_add, decide_eq_false_iff_not, not_lt]
  rw [abs_of_nonneg (by linarith)]
  linarith

/-- C8, amended. For every input with `tolerance ≤ 10` (and a square root that is
non-negative), the flag `converg` is false after the first iteration, and with
`maxIteration ≥ 2` at least two iterations are executed. -/
theorem ComputeMCPASolution_two_iterations {n m K : Nat} (lib : EigenLib α n K)
    (hsqrt : ∀ x, 0 ≤ x → 0 ≤ lib.sqrt x)
    (X : Matrix (Fin n) (Fin m) α) (Lapl : Matrix (Fin n) (Fin n) α) (lambdaPrim : α)
    (D : Int) (maxIteration : Int) (tolerance : α) (Q : Matrix (Fin n) (Fin K) α)
    (G : Matrix (Fin m) (Fin K) α) (htol : tolerance ≤ 10) (hmax : 2 ≤ maxIteration) :
    (iterates lib X Lapl lambdaPrim D tolerance Q G 1).converg = false ∧
      2 ≤ (ComputeMCPASolution lib X Lapl lambdaPrim D maxIteration tolerance Q G).it := by
  have h1 := iterates_one_converg lib hsqrt X Lapl lambdaPrim D tolerance Q G htol
  refine ⟨h1, ?_⟩
  obtain ⟨N, _, hrun, _, hafter⟩ :=
    ComputeMCPASolution_run lib X Lapl lambdaPrim D maxIteration tolerance Q G
  rw [hrun, iterates_it]
  by_contra hlt
  have hN : N < 2 := by omega
  have hc := hafter (by omega)
  interval_cases N
  · rw [iterates_zero] at hc
    simp [initState] at hc
  · rw [h1] at hc
    cases hc

theorem lib1_sqrt_nonneg : ∀ x : ℚ, 0 ≤ x → 0 ≤ lib1.sqrt x :=
  fun x _ => Rat.sqrt_nonneg x

/-- Witness of C8 (amended) on `1 × 1` matrices with `tolerance = 1`,
`maxIteration = 2`. -/
theorem ComputeMCPASolution_two_iterations_witness :
    (∀ x : ℚ, 0 ≤ x → 0 ≤ lib1.sqrt x) ∧ (1 : ℚ) ≤ 10 ∧ (2 : Int) ≤ 2 ∧
      (iterates lib1 (mat1 1) (mat1 0) 0 1 1 (mat1 1) (mat1 1) 1).converg = false ∧
      2 ≤ (ComputeMCPASolution lib1 (mat1 1) (mat1 0) 0 1 2 1 (mat1 1) (mat1 1)).it :=
  ⟨lib1_sqrt_nonneg, by norm_num, by decide,
    ComputeMCPASolution_two_iterations lib1 lib1_sqrt_nonneg (mat1 1) (mat1 0) 0 1 2 1
      (mat1 1) (mat1 1) (by norm_num) (by decide)⟩

theorem ProjectQ_one_by_one (M : Matrix (Fin 1) (Fin 1) ℚ) : ProjectQ M = mat1 1 := by
  funext a b
  rw [ProjectQ_apply, Fin.sum_univ_one]
  have ha : a = 0 := Subsingleton.elim _ _
  have hb : b = 0 := Subsingleton.elim _ _
  subst ha; subst hb
  exact div_self (ne_of_gt (floored_pos _))

theorem ProjectG_one_by_one (M : Matrix (Fin 1) (Fin 1) ℚ) : ProjectG M 1 = mat1 1 := by
  funext a b
  have h := ProjectG_apply M 1 a b
  have ha : a = 0 := Subsingleton.elim _ _
  have hb : b = 0 := Subsingleton.elim _ _
  subst ha; subst hb
  simp only [Nat.cast_one] at h
  rw [h]
  simp only [Fin.val_zero, Nat.div_self, Nat.mul_one, Nat.lt_one_iff, if_true, blockSum,
    Finset.sum_range_one, Nat.zero_div, Nat.mul_zero, Nat.add_zero, Nat.lt_irrefl]
  have hc : coeff M 0 0 = M 0 0 := coeff_eq M 0 0
  rw [hc]
  exact div_self (ne_of_gt (floored_pos _))

theorem norm_lib1 (M : Matrix (Fin 1) (Fin 1) ℚ) : norm lib1 M = |M 0 0| := by
  simp [norm, lib1, Rat.sqrt_eq]

/-- On `1 × 1` inputs with `X = (1)` and `D = 1` the residual after every pass is 0. -/
theorem iterates_one_by_one_err (Lapl : Matrix (Fin 1) (Fin 1) ℚ) (lambdaPrim tolerance : ℚ)
    (Q G : Matrix (Fin 1) (Fin 1) ℚ) (t : Nat) :
    (iterates lib1 (mat1 1) Lapl lambdaPrim 1 tolerance Q G (t + 1)).err = 0 := by
  rw [iterates_succ]
  simp only [iteration, ProjectQ_one_by_one, ProjectG_one_by_one, residual, norm_lib1]
  simp [mat1, Matrix.mul_apply]

/-- C8, counterexample. With `tolerance = 11` (positive) the first residual `0` passes
the test `|0 - (-10)| < 11`: the flag is true after iteration 1 and exactly one
iteration is executed although `maxIteration = 5`. -/
theorem converged_after_one_iteration :
    (0 : ℚ) < 11 ∧ (2 : Int) ≤ 5 ∧
      (iterates lib1 (mat1 1) (mat1 0) 0 1 11 (mat1 1) (mat1 1) 1).converg = true ∧
      (ComputeMCPASolution lib1 (mat1 1) (mat1 0) 0 1 5 11 (mat1 1) (mat1 1)).it = 1 := by
  have hc : (iterates lib1 (mat1 1) (mat1 0) 0 1 11 (mat1 1) (mat1 1) 1).converg = true := by
    rw [iterates_converg, iterates_err_succ, ← iterates_err_succ, iterates_one_by_one_err,
      iterates_zero]
    simp only [initState, decide_eq_true_eq]
    norm_num
  refine ⟨by norm_num, by decide, hc, ?_⟩
  obtain ⟨N, _, hrun, hbefore, hafter⟩ :=
    ComputeMCPASolution_run lib1 (mat1 1) (mat1 0) 0 1 5 11 (mat1 1) (mat1 1)
  rw [hrun, iterates_it]
  have h1 : ¬ 1 < N := by
    intro h
    have := hbefore 1 h
    rw [hc] at this
    cases this
  have h0 : N ≠ 0 := by
    intro h
    subst h
    have := hafter (by decide)
    rw [iterates_zero] at this
    simp [initState] at this
  have : N = 1 := by omega
  rw [this]
  rfl

/-- C9, counterexample. With `maxIteration = -1` no iteration is executed, so the
number of iterations is `0` and not the smaller of `maxIteration` and an iteration
index `t ≥ 1`. -/
theorem negative_maxIteration_count :
    (ComputeMCPASolution lib1 (mat1 1) (mat1 0) 0 1 (-1) 1 (mat1 1) (mat1 1)).it = 0 ∧
      ∀ t : Int, 1 ≤ t →
        (ComputeMCPASolution lib1 (mat1 1) (mat1 0) 0 1 (-1) 1 (mat1 1) (mat1 1)).it ≠
          min (-1) t := by
  have h : (ComputeMCPASolution lib1 (mat1 1) (mat1 0) 0 1 (-1) 1 (mat1 1) (mat1 1)).it = 0 := rfl
  refine ⟨h, fun t ht => ?_⟩
  rw [h]
  omega

/-- C9, amended. The loop of `ComputeMCPASolution` exits with its test false after
`it ≤ max(maxIteration, 0)` passes, and `it` is exactly the smaller of
`max(maxIteration, 0)` and the first index `t ≥ 1` with `|err_t - err_(t-1)| < tolerance`
(`max(maxIteration, 0)` when there is no such index), where `err_0 = -10` and `err_t`
is the relative residual after pass `t`. -/
theorem ComputeMCPASolution_iteration_count {n m K : Nat} (lib : EigenLib α n K)
    (X : Matrix (Fin n) (Fin m) α) (Lapl : Matrix (Fin n) (Fin n) α) (lambdaPrim : α)
    (D : Int) (maxIteration : Int) (tolerance : α) (Q : Matrix (Fin n) (Fin K) α)
    (G : Matrix (Fin m) (Fin K) α) :
    loopCond maxIteration
        (ComputeMCPASolution lib X Lapl lambdaPrim D maxIteration tolerance Q G) = false ∧
    0 ≤ (ComputeMCPASolution lib X Lapl lambdaPrim D maxIteration tolerance Q G).it ∧
    (ComputeMCPASolution lib X Lapl lambdaPrim D maxIteration tolerance Q G).it ≤
      max maxIteration 0 ∧
    ComputeMCPASolution lib X Lapl lambdaPrim D maxIteration tolerance Q G =
      iterates lib X Lapl lambdaPrim D tolerance Q G
        (ComputeMCPASolution lib X Lapl lambdaPrim D maxIteration tolerance Q G).it.toNat ∧
    (iterates lib X Lapl lambdaPrim D tolerance Q G 0).err = -10 ∧
    (∀ t, (iterates lib X Lapl lambdaPrim D tolerance Q G (t + 1)).err =
      residual lib X (iterates lib X Lapl lambdaPrim D tolerance Q G (t + 1)).Q
        (iterates lib X Lapl lambdaPrim D tolerance Q G (t + 1)).G) ∧
    (∀ t : Nat, 1 ≤ t →
      |(iterates lib X Lapl lambdaPrim D tolerance Q G t).err -
        (iterates lib X Lapl lambdaPrim D tolerance Q G (t - 1)).err| < tolerance →
      (∀ s : Nat, 1 ≤ s → s < t →
        ¬ |(iterates lib X Lapl lambdaPrim D tolerance Q G s).err -
          (iterates lib X Lapl lambdaPrim D tolerance Q G (s - 1)).err| < tolerance) →
      (ComputeMCPASolution lib X Lapl lambdaPrim D maxIteration tolerance Q G).it =
        min (max maxIteration 0) (t : Int)) ∧
    ((∀ t : Nat, 1 ≤ t →
        ¬ |(iterates lib X Lapl lambdaPrim D tolerance Q G t).err -
          (iterates lib X Lapl lambdaPrim D tolerance Q G (t - 1)).err| < tolerance) →
      (ComputeMCPASolution lib X Lapl lambdaPrim D maxIteration tolerance Q G).it =
        max maxIteration 0) := by
  obtain ⟨N, hN, hrun, hbefore, hafter⟩ :=
    ComputeMCPASolution_run lib X Lapl lambdaPrim D maxIteration tolerance Q G
  have hit : (ComputeMCPASolution lib X Lapl lambdaPrim D maxIteration tolerance Q G).it
      = (N : Int) := by rw [hrun, iterates_it]
  have hconv : ∀ t : Nat, 1 ≤ t →
      ((iterates lib X Lapl lambdaPrim D tolerance Q G t).converg = true ↔
        |(iterates lib X Lapl lambdaPrim D tolerance Q G t).err -
          (iterates lib X Lapl lambdaPrim D tolerance Q G (t - 1)).err| < tolerance) := by
    intro t ht
    obtain ⟨t', rfl⟩ : ∃ t', t = t' + 1 := ⟨t - 1, by omega⟩
    rw [iterates_converg, Nat.add_sub_cancel, decide_eq_true_eq]
  have h0 : (iterates lib X Lapl lambdaPrim D tolerance Q G 0).converg = false := rfl
  have hNpos : N < maxIteration.toNat → 1 ≤ N := by
    intro hlt
    by_contra hN0
    have hz : N = 0 := by omega
    have := hafter hlt
    rw [hz, h0] at this
    cases this
  refine ⟨?_, ?_, ?_, ?_, rfl, fun t => iterates_err_succ lib X Lapl lambdaPrim D tolerance Q G t,
    ?_, ?_⟩
  · by_cases hlt : N < maxIteration.toNat
    · rw [hrun]
      simp [loopCond, hafter hlt]
    · have : ¬ (ComputeMCPASolution lib X Lapl lambdaPrim D maxIteration tolerance Q G).it
          < maxIteration := by rw [hit]; omega
      simp [loopCond, this]
  · rw [hit]; omega
  · rw [hit]; omega
  · rw [hit, Int.toNat_natCast]; exact hrun
  · intro t ht hc hfirst
    rw [hit]
    have hle : N ≤ t := by
      by_contra hgt
      have hf := hbefore t (by omega)
      rw [(hconv t ht).mpr hc] at hf
      cases hf
    by_cases hlt : N < maxIteration.toNat
    · have hNt : N = t := by
        by_contra hne
        exact hfirst N (hNpos hlt) (by omega) ((hconv N (hNpos hlt)).mp (hafter hlt))
      omega
    · omega
  · intro hnone
    rw [hit]
    by_cases hlt : N < maxIteration.toNat
    · exact absurd ((hconv N (hNpos hlt)).mp (hafter hlt)) (hnone N (hNpos hlt))
    · omega

/-! ## The degenerate case `vpMax = 0` -/

theorem gram_quadratic {m K : Nat} (G : Matrix (Fin m) (Fin K) α) (v : Fin K → α) :
    v ⬝ᵥ ((Gᵀ * G) *ᵥ v) = (G *ᵥ v) ⬝ᵥ (G *ᵥ v) := by
  rw [← Matrix.mulVec_mulVec, Matrix.dotProduct_mulVec, Matrix.vecMul_transpose]

theorem gram_isSymm {m K : Nat} (G : Matrix (Fin m) (Fin K) α) : (Gᵀ * G).IsSymm := by
  unfold Matrix.IsSymm
  rw [Matrix.transpose_mul, Matrix.transpose_transpose]

/-- An invertible Gram matrix `Gᵀ G` is positive definite. -/
theorem gram_posDef {m K : Nat} (G : Matrix (Fin m) (Fin K) α) (hinv : IsUnit (Gᵀ * G).det)
    (v : Fin K → α) (hv : v ≠ 0) : 0 < v ⬝ᵥ ((Gᵀ * G) *ᵥ v) := by
  rw [gram_quadratic]
  have hne : (G *ᵥ v) ⬝ᵥ (G *ᵥ v) ≠ 0 := by
    intro h0
    have hGv : G *ᵥ v = 0 := Matrix.dotProduct_self_eq_zero.mp h0
    have : (Gᵀ * G) *ᵥ v = 0 := by
      rw [← Matrix.mulVec_mulVec, hGv, Matrix.mulVec_zero]
    exact hv (Matrix.eq_zero_of_mulVec_eq_zero hinv.ne_zero this)
  have hnn : 0 ≤ (G *ᵥ v) ⬝ᵥ (G *ᵥ v) :=
    Finset.sum_nonneg fun i _ => mul_self_nonneg _
  exact lt_of_le_of_ne hnn (Ne.symm hne)

/-- The solution `x` of the normal equations `Gᵀ G x = Gᵀ b` minimises the squared
distance between `b` and `G r` over all `r`. -/
theorem normal_equations_minimize {m K : Nat} (G : Matrix (Fin m) (Fin K) α)
    (b : Fin m → α) (x : Fin K → α) (hx : (Gᵀ * G) *ᵥ x = Gᵀ *ᵥ b) (r : Fin K → α) :
    (b - G *ᵥ x) ⬝ᵥ (b - G *ᵥ x) ≤ (b - G *ᵥ r) ⬝ᵥ (b - G *ᵥ r) := by
  have horth : Gᵀ *ᵥ (b - G *ᵥ x) = 0 := by
    rw [Matrix.mulVec_sub, Matrix.mulVec_mulVec, hx, sub_self]
  have hcross : (b - G *ᵥ x) ⬝ᵥ (G *ᵥ (x - r)) = 0 := by
    rw [Matrix.dotProduct_mulVec, ← Matrix.mulVec_transpose, horth, Matrix.zero_dotProduct]
  have hsplit : b - G *ᵥ r = (b - G *ᵥ x) + G *ᵥ (x - r) := by
    rw [Matrix.mulVec_sub]; abel
  have hnn : 0 ≤ (G *ᵥ (x - r)) ⬝ᵥ (G *ᵥ (x - r)) :=
    Finset.sum_nonneg fun i _ => mul_self_nonneg _
  rw [hsplit, Matrix.add_dotProduct, Matrix.dotProduct_add, Matrix.dotProduct_add, hcross,
    Matrix.dotProduct_comm (G *ᵥ (x - r)) (b - G *ᵥ x), hcross]
  linarith

/-- C10. If the largest eigenvalue of `Lapl` is 0 then, for every `lambdaPrim`, `lambda`
is 0 and, `Gᵀ G` being invertible and `LDLT::solve` exact, the row loop of Phase B
leaves `RQ[i,:] = (Gᵀ G)⁻¹ Gᵀ RX[i,:]ᵀ` for every row `i`, which is the least-squares
fit of `RX[i,:]` against `G`. -/
theorem updateRQ_unregularized {n m K : Nat} (lib : EigenLib α n K) (hsolve : LDLTExact lib)
    (X : Matrix (Fin n) (Fin m) α) (Lapl : Matrix (Fin n) (Fin n) α) (lambdaPrim : α)
    (D : Int) (G : Matrix (Fin m) (Fin K) α) (RX : Matrix (Fin n) (Fin m) α)
    (RQ : Matrix (Fin n) (Fin K) α)
    (hmax : maxCoeff (lib.eigenvalues Lapl) = 0) (hinv : IsUnit (Gᵀ * G).det) :
    solverLambda lib X Lapl lambdaPrim D = 0 ∧
      ∀ i : Fin n,
        updateRQ lib (solverLambda lib X Lapl lambdaPrim D) (lib.eigenvalues Lapl) G RX RQ i =
            (Gᵀ * G)⁻¹ *ᵥ (Gᵀ *ᵥ RX i) ∧
          ∀ r : Fin K → α,
            (RX i - G *ᵥ updateRQ lib (solverLambda lib X Lapl lambdaPrim D)
                (lib.eigenvalues Lapl) G RX RQ i) ⬝ᵥ
              (RX i - G *ᵥ updateRQ lib (solverLambda lib X Lapl lambdaPrim D)
                (lib.eigenvalues Lapl) G RX RQ i) ≤
            (RX i - G *ᵥ r) ⬝ᵥ (RX i - G *ᵥ r) := by
  have hl : solverLambda lib X Lapl lambdaPrim D = 0 := by
    simp only [solverLambda, lambdaOf, hmax, ne_eq, not_true_eq_false, if_false]
  refine ⟨hl, fun i => ?_⟩
  have hrow : updateRQ lib (solverLambda lib X Lapl lambdaPrim D) (lib.eigenvalues Lapl) G RX RQ i
      = lib.ldltSolve (Gᵀ * G) (Gᵀ *ᵥ RX i) := by
    rw [updateRQ_apply, hl, zero_mul, zero_smul, add_zero]
  have hsol : (Gᵀ * G) *ᵥ lib.ldltSolve (Gᵀ * G) (Gᵀ *ᵥ RX i) = Gᵀ *ᵥ RX i :=
    hsolve _ _ (gram_isSymm G) (gram_posDef G hinv)
  rw [hrow]
  refine ⟨?_, normal_equations_minimize G (RX i) _ hsol⟩
  calc lib.ldltSolve (Gᵀ * G) (Gᵀ *ᵥ RX i)
      = ((Gᵀ * G)⁻¹ * (Gᵀ * G)) *ᵥ lib.ldltSolve (Gᵀ * G) (Gᵀ *ᵥ RX i) := by
        rw [Matrix.nonsing_inv_mul _ hinv, Matrix.one_mulVec]
    _ = (Gᵀ * G)⁻¹ *ᵥ (Gᵀ *ᵥ RX i) := by
        rw [← Matrix.mulVec_mulVec, hsol]

theorem lib1_ldltExact : LDLTExact lib1 := by
  intro A b _ hpd
  have hone : (fun _ : Fin 1 => (1 : ℚ)) ≠ 0 := by
    intro h
    have := congrFun h 0
    simp at this
  have hpos := hpd (fun _ => 1) hone
  simp only [Matrix.dotProduct, Matrix.mulVec, Fin.sum_univ_one, one_mul, mul_one] at hpos
  funext i
  have hi : i = 0 := Subsingleton.elim _ _
  subst hi
  simp only [lib1, Matrix.mulVec, Matrix.dotProduct, Fin.sum_univ_one]
  field_simp

/-- Witness of C10 on `1 × 1` matrices: Laplacian `(0)`, `G = (1)`. -/
theorem updateRQ_unregularized_witness :
    LDLTExact lib1 ∧ maxCoeff (lib1.eigenvalues (mat1 0)) = 0 ∧
      IsUnit ((mat1 1)ᵀ * mat1 1).det ∧
      (solverLambda lib1 (mat1 1) (mat1 0) 3 1 = 0 ∧
        ∀ i : Fin 1,
          updateRQ lib1 (solverLambda lib1 (mat1 1) (mat1 0) 3 1) (lib1.eigenvalues (mat1 0))
              (mat1 1) (mat1 1) (mat1 1) i =
            ((mat1 1)ᵀ * mat1 1)⁻¹ *ᵥ ((mat1 1)ᵀ *ᵥ mat1 1 i) ∧
          ∀ r : Fin 1 → ℚ,
            (mat1 1 i - mat1 1 *ᵥ updateRQ lib1 (solverLambda lib1 (mat1 1) (mat1 0) 3 1)
                (lib1.eigenvalues (mat1 0)) (mat1 1) (mat1 1) (mat1 1) i) ⬝ᵥ
              (mat1 1 i - mat1 1 *ᵥ updateRQ lib1 (solverLambda lib1 (mat1 1) (mat1 0) 3 1)
                (lib1.eigenvalues (mat1 0)) (mat1 1) (mat1 1) (mat1 1) i) ≤
            (mat1 1 i - mat1 1 *ᵥ r) ⬝ᵥ (mat1 1 i - mat1 1 *ᵥ r)) := by
  have hmax : maxCoeff (lib1.eigenvalues (mat1 0)) = 0 := by
    simp [maxCoeff, lib1, mat1]
  have hinv : IsUnit ((mat1 1)ᵀ * mat1 1).det := by
    simp [Matrix.det_fin_one, Matrix.mul_apply, mat1]
  exact ⟨lib1_ldltExact, hmax, hinv,
    updateRQ_unregularized lib1 lib1_ldltExact (mat1 1) (mat1 0) 3 1 (mat1 1) (mat1 1) (mat1 1)
      hmax hinv⟩

/-! ## Rows at or above the floor, rows at or below the floor -/

/-- C18. A row of `Q` whose entries are all at least `1e-5` is mapped by `ProjectQ` to
that row divided by its own sum; if moreover the row sums to 1 it is left unchanged. -/
theorem ProjectQ_noop_floor {r c : Nat} (Q : Matrix (Fin r) (Fin c) α) (a : Fin r)
    (h : ∀ b, floorEps ≤ Q a b) :
    (∀ b, ProjectQ Q a b = Q a b / ∑ j, Q a j) ∧
      (∑ j, Q a j = 1 → ∀ b, ProjectQ Q a b = Q a b) := by
  have hmax : ∀ j, max floorEps (Q a j) = Q a j := fun j => max_eq_right (h j)
  have h1 : ∀ b, ProjectQ Q a b = Q a b / ∑ j, Q a j := by
    intro b
    rw [ProjectQ_apply]
    simp only [hmax]
  exact ⟨h1, fun hs b => by rw [h1 b, hs, div_one]⟩

/-- Witness of C18 on the one-row matrix `(1/2, 1/2)`. -/
theorem ProjectQ_noop_floor_witness :
    (∀ b, (floorEps : ℚ) ≤ rowHalves 0 b) ∧ ∑ j, rowHalves 0 j = 1 ∧
      ∀ b, ProjectQ rowHalves 0 b = rowHalves 0 b := by
  have h : ∀ b, (floorEps : ℚ) ≤ rowHalves 0 b := by
    intro b
    fin_cases b <;> simp [rowHalves, floorEps] <;> norm_num
  have hs : ∑ j, rowHalves 0 j = 1 := by
    simp [rowHalves, Fin.sum_univ_two]
    norm_num
  exact ⟨h, hs, (ProjectQ_noop_floor rowHalves 0 h).2 hs⟩

theorem floor_div_mul (k : Nat) (hk : 0 < k) : (floorEps : α) / ((k : α) * floorEps) = 1 / (k : α) := by
  have hk' : (k : α) ≠ 0 := by exact_mod_cast (Nat.pos_iff_ne_zero.mp hk)
  have he : (floorEps : α) ≠ 0 := ne_of_gt floorEps_pos
  field_simp
  ring

/-- C20. A row of `Q` (with `K ≥ 1` columns) whose entries are all at most `1e-5` is
mapped by `ProjectQ` to the row with every entry `1/K`; a slice (block `l`, column `k`)
of `G` whose `D` entries are all at most `1e-5` is mapped by `ProjectG` to the slice
with every entry `1/D`. -/
theorem projection_uniform_collapse {r c : Nat} (M : Matrix (Fin r) (Fin c) α) :
    (∀ a : Fin r, 1 ≤ c → (∀ b, M a b ≤ floorEps) → ∀ b, ProjectQ M a b = 1 / (c : α)) ∧
    (∀ (D : Int) (l : Nat) (k : Fin c), 0 < D → (l : Int) < Int.tdiv (r : Int) D →
      (∀ j, j < D.toNat → coeff M (D * l + j).toNat k.val ≤ floorEps) →
      ∀ j, j < D.toNat → coeff (ProjectG M D) (D * l + j).toNat k.val = 1 / (D : α)) := by
  refine ⟨?_, ?_⟩
  · intro a hc h b
    have hmax : ∀ j, max floorEps (M a j) = floorEps := fun j => max_eq_left (h j)
    rw [ProjectQ_apply]
    simp only [hmax, Finset.sum_const, Finset.card_univ, Fintype.card_fin, nsmul_eq_mul]
    exact floor_div_mul c hc
  · intro D l k hD hl h j hj
    obtain ⟨d, rfl⟩ := Int.eq_ofNat_of_zero_le (le_of_lt hD)
    have hd : 0 < d := by exact_mod_cast hD
    have hl' : l < r / d := by
      rw [← Int.ofNat_tdiv] at hl
      exact_mod_cast hl
    rw [Int.toNat_natCast] at h hj
    have hsum : blockSum M d l k.val = (d : α) * floorEps := by
      unfold blockSum
      have : ∀ i ∈ Finset.range d, max floorEps (coeff M (d * l + i) k.val) = floorEps := by
        intro i hi
        have := h i (Finset.mem_range.mp hi)
        rw [toNat_index] at this
        exact max_eq_left this
      rw [Finset.sum_congr rfl this, Finset.sum_const, Finset.card_range, nsmul_eq_mul]
    have hj' := h j hj
    rw [toNat_index] at hj'
    rw [toNat_index, ProjectG_coeff_block M d l j k.val hl' hj k.isLt, hsum, max_eq_left hj']
    rw [floor_div_mul d hd]
    push_cast
    rfl

/-- Witness of C20 on the all-zero row of two entries and the all-zero column of two
entries with block size 2. -/
theorem projection_uniform_collapse_witness :
    (1 ≤ 2 ∧ (∀ b, (0 : Matrix (Fin 1) (Fin 2) ℚ) 0 b ≤ floorEps) ∧
      ∀ b, ProjectQ (0 : Matrix (Fin 1) (Fin 2) ℚ) 0 b = 1 / ((2 : Nat) : ℚ)) ∧
    ((0 : Int) < 2 ∧ ((0 : Nat) : Int) < Int.tdiv ((2 : Nat) : Int) 2 ∧
      (∀ j, j < (2 : Int).toNat →
        coeff (0 : Matrix (Fin 2) (Fin 1) ℚ) ((2 : Int) * (0 : Nat) + j).toNat (0 : Fin 1).val
          ≤ floorEps) ∧
      ∀ j, j < (2 : Int).toNat →
        coeff (ProjectG (0 : Matrix (Fin 2) (Fin 1) ℚ) 2) ((2 : Int) * (0 : Nat) + j).toNat
          (0 : Fin 1).val = 1 / ((2 : Int) : ℚ)) := by
  have h1 : ∀ b, (0 : Matrix (Fin 1) (Fin 2) ℚ) 0 b ≤ floorEps :=
    fun b => le_of_lt floorEps_pos
  have h2 : ∀ j, j < (2 : Int).toNat →
      coeff (0 : Matrix (Fin 2) (Fin 1) ℚ) ((2 : Int) * (0 : Nat) + j).toNat (0 : Fin 1).val
        ≤ floorEps := by
    intro j _
    unfold coeff
    split_ifs
    · exact le_of_lt floorEps_pos
    · exact le_of_lt floorEps_pos
  exact ⟨⟨by decide, h1,
      (projection_uniform_collapse (0 : Matrix (Fin 1) (Fin 2) ℚ)).1 0 (by decide) h1⟩,
    ⟨by decide, by decide, h2,
      (projection_uniform_collapse (0 : Matrix (Fin 2) (Fin 1) ℚ)).2 2 0 0 (by decide)
        (by decide) h2⟩⟩

/-! ## The initial content of `G` -/

/-- Phase A overwrites every row of `G`: its result does not depend on the `G` it
starts from. -/
theorem updateG_initial {n m K : Nat} (lib : EigenLib α n K) (X : Matrix (Fin n) (Fin m) α)
    (Q : Matrix (Fin n) (Fin K) α) (G G' : Matrix (Fin m) (Fin K) α) :
    updateG lib X Q G = updateG lib X Q G' := by
  funext j
  rw [updateG_apply, updateG_apply]

theorem iteration_initState {n m K : Nat} (lib : EigenLib α n K) (X : Matrix (Fin n) (Fin m) α)
    (D : Int) (tolerance : α) (vps : Fin n → α) (R : Matrix (Fin n) (Fin n) α)
    (RX : Matrix (Fin n) (Fin m) α) (lambda : α) (Q : Matrix (Fin n) (Fin K) α)
    (G G' : Matrix (Fin m) (Fin K) α) :
    iteration lib X D tolerance vps R RX lambda (initState Q G) =
      iteration lib X D tolerance vps R RX lambda (initState Q G') := by
  simp only [iteration, initState, updateG_initial lib X Q G G']

/-- With `maxIteration ≥ 1` the final state does not depend on the initial `G`. -/
theorem ComputeMCPASolution_initial_G {n m K : Nat} (lib : EigenLib α n K)
    (X : Matrix (Fin n) (Fin m) α) (Lapl : Matrix (Fin n) (Fin n) α) (lambdaPrim : α)
    (D : Int) (maxIteration : Int) (tolerance : α) (Q : Matrix (Fin n) (Fin K) α)
    (G G' : Matrix (Fin m) (Fin K) α) (hmax : 1 ≤ maxIteration) :
    ComputeMCPASolution lib X Lapl lambdaPrim D maxIteration tolerance Q G =
      ComputeMCPASolution lib X Lapl lambdaPrim D maxIteration tolerance Q G' := by
  obtain ⟨f, hf⟩ : ∃ f, maxIteration.toNat = f + 1 := ⟨maxIteration.toNat - 1, by omega⟩
  have hc : ∀ G0 : Matrix (Fin m) (Fin K) α,
      loopCond maxIteration (initState Q G0 : SolverState α n m K) = true := by
    intro G0
    have : (0 : Int) < maxIteration := by omega
    simp [loopCond, initState, this]
  rw [ComputeMCPASolution_eq, ComputeMCPASolution_eq, hf, mainLoop, mainLoop, if_pos (hc G),
    if_pos (hc G'), iteration_initState lib X D tolerance _ _ _ _ Q G G']

/-- C19. Two runs of `ComputeMCPASolution` with `maxIteration ≥ 1` that agree on every
input and on the initial `Q`, and start from two matrices `G`, `G'` of the same shape,
end with the same `Q`, the same `G` and the same number of iterations. -/
theorem result_independent_of_initial_G {n m K : Nat} (lib : EigenLib α n K)
    (X : Matrix (Fin n) (Fin m) α) (Lapl : Matrix (Fin n) (Fin n) α) (lambdaPrim : α)
    (D : Int) (maxIteration : Int) (tolerance : α) (Q : Matrix (Fin n) (Fin K) α)
    (G G' : Matrix (Fin m) (Fin K) α) (hmax : 1 ≤ maxIteration) :
    (ComputeMCPASolution lib X Lapl lambdaPrim D maxIteration tolerance Q G).Q =
        (ComputeMCPASolution lib X Lapl lambdaPrim D maxIteration tolerance Q G').Q ∧
      (ComputeMCPASolution lib X Lapl lambdaPrim D maxIteration tolerance Q G).G =
        (ComputeMCPASolution lib X Lapl lambdaPrim D maxIteration tolerance Q G').G ∧
      (ComputeMCPASolution lib X Lapl lambdaPrim D maxIteration tolerance Q G).it =
        (ComputeMCPASolution lib X Lapl lambdaPrim D maxIteration tolerance Q G').it := by
  rw [ComputeMCPASolution_initial_G lib X Lapl lambdaPrim D maxIteration tolerance Q G G' hmax]
  exact ⟨rfl, rfl, rfl⟩

/-- Witness of C19 on `1 × 1` matrices with initial `G = (1)` and `G = (5)`. -/
theorem result_independent_of_initial_G_witness :
    (1 : Int) ≤ 3 ∧
      (ComputeMCPASolution lib1 (mat1 1) (mat1 0) 0 1 3 1 (mat1 1) (mat1 1)).Q =
        (ComputeMCPASolution lib1 (mat1 1) (mat1 0) 0 1 3 1 (mat1 1) (mat1 5)).Q ∧
      (ComputeMCPASolution lib1 (mat1 1) (mat1 0) 0 1 3 1 (mat1 1) (mat1 1)).G =
        (ComputeMCPASolution lib1 (mat1 1) (mat1 0) 0 1 3 1 (mat1 1) (mat1 5)).G ∧
      (ComputeMCPASolution lib1 (mat1 1) (mat1 0) 0 1 3 1 (mat1 1) (mat1 1)).it =
        (ComputeMCPASolution lib1 (mat1 1) (mat1 0) 0 1 3 1 (mat1 1) (mat1 5)).it :=
  ⟨by decide, result_independent_of_initial_G lib1 (mat1 1) (mat1 0) 0 1 3 1 (mat1 1)
    (mat1 1) (mat1 5) (by decide)⟩

/-! ## Worker count -/

/-- C13. In the build with OpenMP, `InitOpenMP n` sets the thread count to `min n p`
for `p` available processors: to `p`, with one advisory, when `n > p`, and to `n`, with
none, otherwise. In the build without OpenMP it leaves the thread count alone and
issues at most a warning. Both return for every `n`. -/
theorem InitOpenMP_clamps (numProcs n : Int) (w : Workers) :
    (InitOpenMP true numProcs n w).numThreads = min n numProcs ∧
    (numProcs < n → InitOpenMP true numProcs n w =
      { numThreads := numProcs, advisories := w.advisories ++ [Advisory.clamped numProcs] }) ∧
    (n ≤ numProcs → InitOpenMP true numProcs n w =
      { numThreads := n, advisories := w.advisories }) ∧
    (InitOpenMP false numProcs n w).numThreads = w.numThreads ∧
    (1 < n → InitOpenMP false numProcs n w =
      { w with advisories := w.advisories ++ [Advisory.noOpenMP] }) ∧
    (n ≤ 1 → InitOpenMP false numProcs n w = w) := by
  refine ⟨?_, ?_, ?_, ?_, ?_, ?_⟩
  · by_cases h : numProcs < n
    · simp only [InitOpenMP, if_true, h]
      omega
    · simp only [InitOpenMP, if_true, h, if_false]
      omega
  · intro h
    simp only [InitOpenMP, if_true, h]
  · intro h
    have h' : ¬ numProcs < n := by omega
    simp only [InitOpenMP, if_true, h', if_false]
  · by_cases h : n > 1
    · simp only [InitOpenMP, Bool.false_eq_true, if_false, h, if_true]
    · simp only [InitOpenMP, Bool.false_eq_true, if_false, h]
  · intro h
    have h' : n > 1 := h
    simp only [InitOpenMP, Bool.false_eq_true, if_false, h', if_true]
  · intro h
    have h' : ¬ n > 1 := by omega
    simp only [InitOpenMP, Bool.false_eq_true, if_false, h']

/-- Witness of C13: 8 threads requested with 4 processors. -/
theorem InitOpenMP_clamps_witness :
    (4 : Int) < 8 ∧
      InitOpenMP true 4 8 { numThreads := 1, advisories := [] } =
        { numThreads := 4, advisories := [] ++ [Advisory.clamped 4] } :=
  ⟨by decide, (InitOpenMP_clamps 4 8 { numThreads := 1, advisories := [] }).2.1 (by decide)⟩

/-! ## Graph weights -/

/-- State of the loop over `j` that writes row `i`, after `t` entries. -/
theorem fill_row_loop {r c : Nat} (f : Nat → α) (W : Matrix (Fin r) (Fin c) α) (i t : Nat) :
    forLoop t (fun j W => setCoeff W i j (f j)) W =
      fun a b => if a.val = i ∧ b.val < t then f b.val else W a b := by
  induction t with
  | zero => simp [forLoop_zero]
  | succ t ih =>
    rw [forLoop_succ, ih]
    funext a b
    simp only [setCoeff]
    by_cases h1 : a.val = i ∧ b.val = t
    · have h2 : a.val = i ∧ b.val < t + 1 := ⟨h1.1, by omega⟩
      rw [if_pos h1, if_pos h2, h1.2]
    · rw [if_neg h1]
      by_cases h3 : a.val = i ∧ b.val < t
      · have h2 : a.val = i ∧ b.val < t + 1 := ⟨h3.1, by omega⟩
        rw [if_pos h3, if_pos h2]
      · have h2 : ¬ (a.val = i ∧ b.val < t + 1) := by
          intro h; rcases Nat.lt_succ_iff_lt_or_eq.mp h.2 with h4 | h4
          · exact h3 ⟨h.1, h4⟩
          · exact h1 ⟨h.1, h4⟩
        rw [if_neg h3, if_neg h2]

/-- State of the two loops that write the lower triangle, after `t` rows. -/
theorem fill_lower_loop {n : Nat} (f : Nat → Nat → α) (W0 : Matrix (Fin n) (Fin n) α) (t : Nat) :
    forLoop t (fun i W => forLoop (i + 1) (fun j W => setCoeff W i j (f i j)) W) W0 =
      fun a b => if a.val < t ∧ b.val ≤ a.val then f a.val b.val else W0 a b := by
  induction t with
  | zero => simp [forLoop_zero]
  | succ t ih =>
    rw [forLoop_succ, ih, fill_row_loop (f t)]
    funext a b
    by_cases h1 : a.val = t ∧ b.val < t + 1
    · have h2 : a.val < t + 1 ∧ b.val ≤ a.val := by omega
      rw [if_pos h1, if_pos h2, h1.1]
    · rw [if_neg h1]
      by_cases h3 : a.val < t ∧ b.val ≤ a.val
      · have h2 : a.val < t + 1 ∧ b.val ≤ a.val := by omega
        rw [if_pos h3, if_pos h2]
      · have h2 : ¬ (a.val < t + 1 ∧ b.val ≤ a.val) := by omega
        rw [if_neg h3, if_neg h2]

/-- Mirroring a lower triangle filled with a symmetric `f` gives `f` everywhere. -/
theorem fill_lower_mirror {n : Nat} (f : Nat → Nat → α) (hf : ∀ i j, f i j = f j i)
    (W0 : Matrix (Fin n) (Fin n) α) (a b : Fin n) :
    selfadjointViewLower
      (forLoop n (fun i W => forLoop (i + 1) (fun j W => setCoeff W i j (f i j)) W) W0) a b =
      f a.val b.val := by
  rw [fill_lower_loop]
  unfold selfadjointViewLower
  by_cases h : b.val ≤ a.val
  · have h2 : a.val < n ∧ b.val ≤ a.val := ⟨a.isLt, h⟩
    rw [if_pos h]
    beta_reduce
    rw [if_pos h2]
  · have h2 : b.val < n ∧ a.val ≤ b.val := ⟨b.isLt, by omega⟩
    rw [if_neg h]
    beta_reduce
    rw [if_pos h2]
    exact hf _ _

theorem squaredNorm_sub_comm {d : Nat} (u v : Fin d → α) :
    squaredNorm (u - v) = squaredNorm (v - u) := by
  unfold squaredNorm
  refine Finset.sum_congr rfl fun k _ => ?_
  simp only [Pi.sub_apply]
  ring

theorem squaredNorm_self_sub {d : Nat} (u : Fin d → α) : squaredNorm (u - u) = 0 := by
  simp [squaredNorm]

/-- Every entry of the result of `ComputeHeatKernelWeight`, for any `exp`. -/
theorem ComputeHeatKernelWeight_apply {n d : Nat} (exp : α → α)
    (coord : Matrix (Fin n) (Fin d) α) (sigma : α) (W0 : Matrix (Fin n) (Fin n) α)
    (a b : Fin n) :
    ComputeHeatKernelWeight exp coord sigma W0 a b =
      exp (-squaredNorm (coord a - coord b) / sigma / sigma) := by
  unfold ComputeHeatKernelWeight
  rw [fill_lower_mirror
    (fun i j => exp (-squaredNorm (rowAt coord i - rowAt coord j) / sigma / sigma))
    (fun i j => by simp only [squaredNorm_sub_comm (rowAt coord i) (rowAt coord j)])]
  simp only [rowAt_val]

/-- Every entry of the result of `ComputeExponetialWeight`, for any `exp` and `sqrt`. -/
theorem ComputeExponetialWeight_apply {n d : Nat} (exp sqrt : α → α)
    (coord : Matrix (Fin n) (Fin d) α) (sigma : α) (W0 : Matrix (Fin n) (Fin n) α)
    (a b : Fin n) :
    ComputeExponetialWeight exp sqrt coord sigma W0 a b =
      exp (-sqrt (squaredNorm (coord a - coord b)) / sigma) := by
  unfold ComputeExponetialWeight
  rw [fill_lower_mirror
    (fun i j => exp (-sqrt (squaredNorm (rowAt coord i - rowAt coord j)) / sigma))
    (fun i j => by simp only [squaredNorm_sub_comm (rowAt coord i) (rowAt coord j)])]
  simp only [rowAt_val]

/-- C14. Over the reals, for every coordinate matrix with `n` rows and every
`sigma ≠ 0`, `ComputeHeatKernelWeight` returns `W` with `W(i,j) = exp(-‖coord_i -
coord_j‖² / sigma²)` for all pairs `(i,j)`, whatever `W` held before; `W` is symmetric,
its entries are non-negative and its diagonal entries are 1. Likewise
`ComputeExponetialWeight` with `exp(-‖coord_i - coord_j‖ / sigma)`, the norm being the
square root of `squaredNorm`. -/
theorem weight_matrix_all_pairs {n d : Nat} (coord : Matrix (Fin n) (Fin d) ℝ) (sigma : ℝ)
    (_hsigma : sigma ≠ 0) (W0 : Matrix (Fin n) (Fin n) ℝ) :
    ((∀ i j, ComputeHeatKernelWeight Real.exp coord sigma W0 i j =
        Real.exp (-squaredNorm (coord i - coord j) / sigma ^ 2)) ∧
      (∀ i j, ComputeHeatKernelWeight Real.exp coord sigma W0 i j =
        ComputeHeatKernelWeight Real.exp coord sigma W0 j i) ∧
      (∀ i j, 0 ≤ ComputeHeatKernelWeight Real.exp coord sigma W0 i j) ∧
      (∀ i, ComputeHeatKernelWeight Real.exp coord sigma W0 i i = 1)) ∧
    ((∀ i j, ComputeExponetialWeight Real.exp Real.sqrt coord sigma W0 i j =
        Real.exp (-Real.sqrt (squaredNorm (coord i - coord j)) / sigma)) ∧
      (∀ i j, ComputeExponetialWeight Real.exp Real.sqrt coord sigma W0 i j =
        ComputeExponetialWeight Real.exp Real.sqrt coord sigma W0 j i) ∧
      (∀ i j, 0 ≤ ComputeExponetialWeight Real.exp Real.sqrt coord sigma W0 i j) ∧
      (∀ i, ComputeExponetialWeight Real.exp Real.sqrt coord sigma W0 i i = 1)) := by
  refine ⟨⟨?_, ?_, ?_, ?_⟩, ⟨?_, ?_, ?_, ?_⟩⟩
  · intro i j
    rw [ComputeHeatKernelWeight_apply, div_div, ← sq]
  · intro i j
    rw [ComputeHeatKernelWeight_apply, ComputeHeatKernelWeight_apply,
      squaredNorm_sub_comm (coord i) (coord j)]
  · intro i j
    rw [ComputeHeatKernelWeight_apply]
    exact Real.exp_nonneg _
  · intro i
    rw [ComputeHeatKernelWeight_apply, squaredNorm_self_sub, neg_zero, zero_div, zero_div,
      Real.exp_zero]
  · intro i j
    rw [ComputeExponetialWeight_apply]
  · intro i j
    rw [ComputeExponetialWeight_apply, ComputeExponetialWeight_apply,
      squaredNorm_sub_comm (coord i) (coord j)]
  · intro i j
    rw [ComputeExponetialWeight_apply]
    exact Real.exp_nonneg _
  · intro i
    rw [ComputeExponetialWeight_apply, squaredNorm_self_sub, Real.sqrt_zero, neg_zero,
      zero_div, Real.exp_zero]

/-- Witness of C14 on four points of the line at `0, 1, 2, 3` with `sigma = 1`. -/
theorem weight_matrix_all_pairs_witness :
    (1 : ℝ) ≠ 0 ∧
      ∀ i j : Fin 4,
        ComputeHeatKernelWeight Real.exp (fun (a : Fin 4) (_ : Fin 1) => (a.val : ℝ)) 1 0 i j =
          ComputeHeatKernelWeight Real.exp (fun (a : Fin 4) (_ : Fin 1) => (a.val : ℝ)) 1 0 j i :=
  ⟨one_ne_zero,
    (weight_matrix_all_pairs (fun (a : Fin 4) (_ : Fin 1) => (a.val : ℝ)) 1 one_ne_zero 0).1.2.1⟩

/-! ## Inputs the solver does not check -/

/-- With `maxIteration = 1` the loop body runs exactly once. -/
theorem ComputeMCPASolution_one_pass {n m K : Nat} (lib : EigenLib α n K)
    (X : Matrix (Fin n) (Fin m) α) (Lapl : Matrix (Fin n) (Fin n) α) (lambdaPrim : α)
    (D : Int) (tolerance : α) (Q : Matrix (Fin n) (Fin K) α) (G : Matrix (Fin m) (Fin K) α) :
    ComputeMCPASolution lib X Lapl lambdaPrim D 1 tolerance Q G =
      iterates lib X Lapl lambdaPrim D tolerance Q G 1 := by
  have hc : loopCond 1 (initState Q G : SolverState α n m K) = true := by
    simp [loopCond, initState]
  rw [ComputeMCPASolution_eq]
  change mainLoop _ _ 1 _ = _
  rw [mainLoop, if_pos hc, mainLoop]
  rfl

/-- With `maxIteration ≥ 1` the loop body runs at least once. -/
theorem ComputeMCPASolution_run_pos {n m K : Nat} (lib : EigenLib α n K)
    (X : Matrix (Fin n) (Fin m) α) (Lapl : Matrix (Fin n) (Fin n) α) (lambdaPrim : α)
    (D : Int) (maxIteration : Int) (tolerance : α) (Q : Matrix (Fin n) (Fin K) α)
    (G : Matrix (Fin m) (Fin K) α) (hmax : 1 ≤ maxIteration) :
    ∃ N : Nat, ComputeMCPASolution lib X Lapl lambdaPrim D maxIteration tolerance Q G =
      iterates lib X Lapl lambdaPrim D tolerance Q G (N + 1) := by
  obtain ⟨N, _, hrun, _, hafter⟩ :=
    ComputeMCPASolution_run lib X Lapl lambdaPrim D maxIteration tolerance Q G
  cases N with
  | zero =>
    have := hafter (by omega)
    rw [iterates_zero] at this
    simp [initState] at this
  | succ N => exact ⟨N, hrun⟩

/-- Rows of `G` after the last full block of `d` rows are not touched by `ProjectG`. -/
theorem ProjectG_tail {r c : Nat} (G : Matrix (Fin r) (Fin c) α) (d : Nat) (a : Fin r)
    (ha : d * (r / d) ≤ a.val) : ProjectG G (d : Int) a = G a := by
  funext b
  rw [ProjectG_apply, if_neg (by omega)]

/-- C11, counterexample. With `D = 2` and an `X` of one column (2 does not divide 1) the
solver reports nothing: it runs its one iteration and overwrites both `Q` and `G`. -/
theorem no_error_on_bad_block_size :
    ¬ ((2 : Int) ∣ ((1 : Nat) : Int)) ∧
      (ComputeMCPASolution lib1 (mat1 1) (mat1 0) 0 2 1 1 (mat1 2) (mat1 1)).it = 1 ∧
      (ComputeMCPASolution lib1 (mat1 1) (mat1 0) 0 2 1 1 (mat1 2) (mat1 1)).Q ≠ mat1 2 ∧
      (ComputeMCPASolution lib1 (mat1 1) (mat1 0) 0 2 1 1 (mat1 2) (mat1 1)).G ≠ mat1 1 := by
  rw [ComputeMCPASolution_one_pass]
  refine ⟨by decide, by rw [iterates_it]; rfl, ?_, ?_⟩
  · have hQ : (iterates lib1 (mat1 1) (mat1 0) 0 2 1 (mat1 2) (mat1 1) 1).Q = mat1 1 := by
      rw [iterates_succ]
      simp only [iteration, ProjectQ_one_by_one]
    rw [hQ]
    intro h
    have := congrFun (congrFun h 0) 0
    simp [mat1] at this
  · intro h
    have h0 := congrFun (congrFun h 0) 0
    rw [iterates_succ, iterates_zero] at h0
    simp only [iteration, initState] at h0
    have ht := ProjectG_tail (updateG lib1 (mat1 1) (mat1 2) (mat1 1)) 2 0 (by decide)
    simp only [Nat.cast_ofNat] at ht
    rw [ht, updateG_apply] at h0
    simp [lib1, mat1, Matrix.mul_apply, Matrix.mulVec, Matrix.dotProduct] at h0

/-- C11, amended. The solver does not check that `D` divides the column count of `X`:
for every input with `D ≠ 0` (at `D = 0` the source divides by zero) and `K ≥ 1` the
column count of `Q` and `G`, whether or not `D` divides the column count of `X`, with
`maxIteration ≥ 1` the loop runs `N + 1 ≥ 1` passes; `Q` is then the `ProjectQ` of the
back-transformed `RQ`, `G` is the `ProjectG` of the Phase A rows, and for `D > 0` the
rows of `G` after the last full block of `D` rows are the Phase A rows themselves. -/
theorem solver_runs_unchecked {n m K : Nat} (lib : EigenLib α n K)
    (X : Matrix (Fin n) (Fin m) α) (Lapl : Matrix (Fin n) (Fin n) α) (lambdaPrim : α)
    (D : Int) (maxIteration : Int) (tolerance : α) (Q : Matrix (Fin n) (Fin K) α)
    (G : Matrix (Fin m) (Fin K) α) (_hD0 : D ≠ 0) (_hK : 1 ≤ K) (hmax : 1 ≤ maxIteration) :
    ∃ N : Nat,
      ComputeMCPASolution lib X Lapl lambdaPrim D maxIteration tolerance Q G =
        iterates lib X Lapl lambdaPrim D tolerance Q G (N + 1) ∧
      (ComputeMCPASolution lib X Lapl lambdaPrim D maxIteration tolerance Q G).it =
        (N : Int) + 1 ∧
      (ComputeMCPASolution lib X Lapl lambdaPrim D maxIteration tolerance Q G).Q =
        ProjectQ (((lib.eigenvectors Lapl)ᵀ)ᵀ *
          (ComputeMCPASolution lib X Lapl lambdaPrim D maxIteration tolerance Q G).RQ) ∧
      (ComputeMCPASolution lib X Lapl lambdaPrim D maxIteration tolerance Q G).G =
        ProjectG (updateG lib X (iterates lib X Lapl lambdaPrim D tolerance Q G N).Q
          (iterates lib X Lapl lambdaPrim D tolerance Q G N).G) D ∧
      (0 < D → ∀ a : Fin m, D.toNat * (m / D.toNat) ≤ a.val →
        (ComputeMCPASolution lib X Lapl lambdaPrim D maxIteration tolerance Q G).G a =
          lib.ldltSolve
            ((iterates lib X Lapl lambdaPrim D tolerance Q G N).Qᵀ *
              (iterates lib X Lapl lambdaPrim D tolerance Q G N).Q)
            ((iterates lib X Lapl lambdaPrim D tolerance Q G N).Qᵀ *ᵥ fun i => X i a)) := by
  obtain ⟨N, hN⟩ :=
    ComputeMCPASolution_run_pos lib X Lapl lambdaPrim D maxIteration tolerance Q G hmax
  refine ⟨N, hN, ?_, ?_, ?_, ?_⟩
  · rw [hN, iterates_it]
    push_cast
    rfl
  · rw [hN, iterates_succ]
    rfl
  · rw [hN, iterates_succ]
    rfl
  · intro hD a ha
    obtain ⟨d, rfl⟩ := Int.eq_ofNat_of_zero_le (le_of_lt hD)
    rw [Int.toNat_natCast] at ha
    rw [hN, iterates_succ]
    change ProjectG (updateG lib X _ _) (d : Int) a = _
    rw [ProjectG_tail _ d a ha, updateG_apply]

/-- Witness of C11 (amended) on the input of the counterexample. -/
theorem solver_runs_unchecked_witness :
    (2 : Int) ≠ 0 ∧ 1 ≤ 1 ∧ (1 : Int) ≤ 1 ∧ ¬ ((2 : Int) ∣ ((1 : Nat) : Int)) ∧ ∃ N : Nat,
      ComputeMCPASolution lib1 (mat1 1) (mat1 0) 0 2 1 1 (mat1 2) (mat1 1) =
        iterates lib1 (mat1 1) (mat1 0) 0 2 1 (mat1 2) (mat1 1) (N + 1) := by
  obtain ⟨N, hN, _⟩ :=
    solver_runs_unchecked lib1 (mat1 1) (mat1 0) 0 2 1 1 (mat1 2) (mat1 1)
      (by decide) (by decide) (by decide)
  exact ⟨by decide, by decide, by decide, by decide, N, hN⟩

/-! ## Singular systems -/

/-- The loop reaches pass `s + 1` when `s < maxIteration` and the flag `converg` is
false after each of the passes `0, ..., s`. -/
theorem ComputeMCPASolution_reaches {n m K : Nat} (lib : EigenLib α n K)
    (X : Matrix (Fin n) (Fin m) α) (Lapl : Matrix (Fin n) (Fin n) α) (lambdaPrim : α)
    (D : Int) (maxIteration : Int) (tolerance : α) (Q : Matrix (Fin n) (Fin K) α)
    (G : Matrix (Fin m) (Fin K) α) (s : Nat) (hs : (s : Int) < maxIteration)
    (hreach : ∀ u, u ≤ s → (iterates lib X Lapl lambdaPrim D tolerance Q G u).converg = false) :
    (s : Int) + 1 ≤ (ComputeMCPASolution lib X Lapl lambdaPrim D maxIteration tolerance Q G).it := by
  obtain ⟨N, _, hrun, _, hafter⟩ :=
    ComputeMCPASolution_run lib X Lapl lambdaPrim D maxIteration tolerance Q G
  rw [hrun, iterates_it]
  by_contra hlt
  have hN : N ≤ s := by omega
  have hc := hafter (by omega)
  rw [hreach N hN] at hc
  cases hc

/-- C12, counterexample. With the initial `Q = (0)` the matrix `Qᵀ Q` of the first
iteration is singular; the solve is not aborted: the second iteration runs and the
solver returns `Q = G = (1)`, an exact factorization of `X = (1)`. -/
theorem singular_gram_no_abort :
    ((mat1 0)ᵀ * mat1 0).det = 0 ∧
      (ComputeMCPASolution lib1 (mat1 1) (mat1 0) 0 1 2 1 (mat1 0) (mat1 1)).it = 2 ∧
      (ComputeMCPASolution lib1 (mat1 1) (mat1 0) 0 1 2 1 (mat1 0) (mat1 1)).Q = mat1 1 ∧
      (ComputeMCPASolution lib1 (mat1 1) (mat1 0) 0 1 2 1 (mat1 0) (mat1 1)).G = mat1 1 := by
  have hdet : ((mat1 0)ᵀ * mat1 0).det = 0 := by
    simp [Matrix.det_fin_one, Matrix.mul_apply, mat1]
  have h1 : (iterates lib1 (mat1 1) (mat1 0) 0 1 1 (mat1 0) (mat1 1) 1).converg = false :=
    iterates_one_converg lib1 lib1_sqrt_nonneg _ _ _ _ _ _ _ (by norm_num)
  have hge := ComputeMCPASolution_reaches lib1 (mat1 1) (mat1 0) 0 1 2 1 (mat1 0) (mat1 1) 1
    (by decide) (by
      intro u hu
      interval_cases u
      · rfl
      · exact h1)
  obtain ⟨N, hN, hrun, _, _⟩ :=
    ComputeMCPASolution_run lib1 (mat1 1) (mat1 0) 0 1 2 1 (mat1 0) (mat1 1)
  rw [hrun, iterates_it] at hge
  have hN2 : N = 2 := by
    have : N ≤ 2 := hN
    omega
  subst hN2
  rw [hrun]
  refine ⟨hdet, iterates_it _ _ _ _ _ _ _ _ _, ?_, ?_⟩
  · rw [iterates_succ]
    simp only [iteration, ProjectQ_one_by_one]
  · rw [iterates_succ]
    simp only [iteration, ProjectG_one_by_one]

/-- C12, amended. No singularity is detected: when the loop reaches pass `s + 1`
(`s < maxIteration`, no convergence before) and `Qᵀ Q` is singular there, or
`Gᵀ G + lambda * vps[i] * I` is singular for some row `i`, the pass is executed in full
like any other (`G` and `Q` are the projections of what the solves returned), and the
loop goes on to pass `s + 2` unless the convergence test or `maxIteration` stops it. -/
theorem singular_solve_continues {n m K : Nat} (lib : EigenLib α n K)
    (X : Matrix (Fin n) (Fin m) α) (Lapl : Matrix (Fin n) (Fin n) α) (lambdaPrim : α)
    (D : Int) (maxIteration : Int) (tolerance : α) (Q : Matrix (Fin n) (Fin K) α)
    (G : Matrix (Fin m) (Fin K) α) (s : Nat) (hs : (s : Int) < maxIteration)
    (hreach : ∀ u, u ≤ s → (iterates lib X Lapl lambdaPrim D tolerance Q G u).converg = false)
    (_hsing :
      ((iterates lib X Lapl lambdaPrim D tolerance Q G s).Qᵀ *
        (iterates lib X Lapl lambdaPrim D tolerance Q G s).Q).det = 0 ∨
      ∃ i : Fin n,
        ((iterates lib X Lapl lambdaPrim D tolerance Q G (s + 1)).Gᵀ *
          (iterates lib X Lapl lambdaPrim D tolerance Q G (s + 1)).G +
          (solverLambda lib X Lapl lambdaPrim D * lib.eigenvalues Lapl i) •
            (1 : Matrix (Fin K) (Fin K) α)).det = 0) :
    (s : Int) + 1 ≤
        (ComputeMCPASolution lib X Lapl lambdaPrim D maxIteration tolerance Q G).it ∧
      (iterates lib X Lapl lambdaPrim D tolerance Q G (s + 1)).G =
        ProjectG (updateG lib X (iterates lib X Lapl lambdaPrim D tolerance Q G s).Q
          (iterates lib X Lapl lambdaPrim D tolerance Q G s).G) D ∧
      (iterates lib X Lapl lambdaPrim D tolerance Q G (s + 1)).Q =
        ProjectQ (((lib.eigenvectors Lapl)ᵀ)ᵀ *
          (iterates lib X Lapl lambdaPrim D tolerance Q G (s + 1)).RQ) ∧
      ((iterates lib X Lapl lambdaPrim D tolerance Q G (s + 1)).converg = false →
        (s : Int) + 1 < maxIteration →
        (s : Int) + 2 ≤
          (ComputeMCPASolution lib X Lapl lambdaPrim D maxIteration tolerance Q G).it) := by
  refine ⟨ComputeMCPASolution_reaches lib X Lapl lambdaPrim D maxIteration tolerance Q G s hs
    hreach, by rw [iterates_succ]; rfl, by rw [iterates_succ]; rfl, ?_⟩
  intro hc hlt
  have h := ComputeMCPASolution_reaches lib X Lapl lambdaPrim D maxIteration tolerance Q G
    (s + 1) (by push_cast; exact hlt) (by
      intro u hu
      rcases Nat.lt_or_ge u (s + 1) with h1 | h1
      · exact hreach u (by omega)
      · have : u = s + 1 := by omega
        rw [this]; exact hc)
  push_cast at h
  omega

/-- Witness of C12 (amended) on the input of the counterexample, at the first pass. -/
theorem singular_solve_continues_witness :
    ((0 : Nat) : Int) < 2 ∧
      ((iterates lib1 (mat1 1) (mat1 0) 0 1 1 (mat1 0) (mat1 1) 0).Qᵀ *
        (iterates lib1 (mat1 1) (mat1 0) 0 1 1 (mat1 0) (mat1 1) 0).Q).det = 0 ∧
      ((0 : Nat) : Int) + 1 ≤
        (ComputeMCPASolution lib1 (mat1 1) (mat1 0) 0 1 2 1 (mat1 0) (mat1 1)).it := by
  have hdet : ((iterates lib1 (mat1 1) (mat1 0) 0 1 1 (mat1 0) (mat1 1) 0).Qᵀ *
      (iterates lib1 (mat1 1) (mat1 0) 0 1 1 (mat1 0) (mat1 1) 0).Q).det = 0 := by
    rw [iterates_zero]
    simp [initState, Matrix.det_fin_one, Matrix.mul_apply, mat1]
  exact ⟨by decide, hdet,
    (singular_solve_continues lib1 (mat1 1) (mat1 0) 0 1 2 1 (mat1 0) (mat1 1) 0 (by decide)
      (by intro u hu; have : u = 0 := by omega
          rw [this]; rfl)
      (Or.inl hdet)).1⟩

/-! ## Parallel regions -/

/-- A loop whose body adds one to a counter leaves the counter increased by the number
of times the body was entered. -/
theorem mainLoop_counter {σ : Type} (cond : σ → Bool) (body : σ → σ) (it : σ → Int)
    (hbody : ∀ st, it (body st) = it st + 1) (fuel : Nat) (st : σ) :
    it (mainLoop cond body fuel st) = it st + (parallelRegionEntries cond body fuel st : Int) := by
  induction fuel generalizing st with
  | zero => simp [mainLoop, parallelRegionEntries]
  | succ fuel ih =>
    rw [mainLoop, parallelRegionEntries]
    by_cases hc : cond st = true
    · rw [if_pos hc, if_pos hc, ih, hbody]
      push_cast
      ring
    · rw [if_neg hc, if_neg hc]
      simp

theorem regionEntries_eq_it {n m K : Nat} (lib : EigenLib α n K)
    (X : Matrix (Fin n) (Fin m) α) (Lapl : Matrix (Fin n) (Fin n) α) (lambdaPrim : α)
    (D : Int) (maxIteration : Int) (tolerance : α) (Q : Matrix (Fin n) (Fin K) α)
    (G : Matrix (Fin m) (Fin K) α) :
    (ComputeMCPASolution lib X Lapl lambdaPrim D maxIteration tolerance Q G).it =
      (ComputeMCPASolution.regionEntries lib X Lapl lambdaPrim D maxIteration tolerance Q G :
        Int) := by
  unfold ComputeMCPASolution ComputeMCPASolution.regionEntries
  rw [mainLoop_counter _ _ (fun st : SolverState α n m K => st.it) (fun st => rfl)]
  simp [initState]

theorem regionEntries_NoCopyX_eq_it {n m K : Nat} (lib : EigenLib α n K)
    (X : Matrix (Fin n) (Fin m) α) (Lapl : Matrix (Fin n) (Fin n) α) (lambdaPrim : α)
    (D : Int) (maxIteration : Int) (tolerance : α) (Q : Matrix (Fin n) (Fin K) α)
    (G : Matrix (Fin m) (Fin K) α) (RXi0 : Matrix (Fin 1) (Fin m) α) :
    (ComputeMCPASolutionNoCopyX lib X Lapl lambdaPrim D maxIteration tolerance Q G RXi0).it =
      (ComputeMCPASolutionNoCopyX.regionEntries lib X Lapl lambdaPrim D maxIteration tolerance
        Q G RXi0 : Int) := by
  unfold ComputeMCPASolutionNoCopyX ComputeMCPASolutionNoCopyX.regionEntries
  rw [mainLoop_counter _ _
    (fun st : SolverState α n m K × Matrix (Fin 1) (Fin m) α => st.1.it) (fun st => rfl)]
  simp [initState]

/-- On `1 × 1` inputs with `tolerance = 1` and `maxIteration = 2` both passes run. -/
theorem two_passes_example :
    (ComputeMCPASolution lib1 (mat1 1) (mat1 0) 0 1 2 1 (mat1 1) (mat1 1)).it = 2 := by
  have h1 : (iterates lib1 (mat1 1) (mat1 0) 0 1 1 (mat1 1) (mat1 1) 1).converg = false :=
    iterates_one_converg lib1 lib1_sqrt_nonneg _ _ _ _ _ _ _ (by norm_num)
  have hge := ComputeMCPASolution_reaches lib1 (mat1 1) (mat1 0) 0 1 2 1 (mat1 1) (mat1 1) 1
    (by decide) (by
      intro u hu
      interval_cases u
      · rfl
      · exact h1)
  obtain ⟨N, hN, hrun, _, _⟩ :=
    ComputeMCPASolution_run lib1 (mat1 1) (mat1 0) 0 1 2 1 (mat1 1) (mat1 1)
  rw [hrun, iterates_it] at hge ⊢
  have : N ≤ 2 := hN
  omega

/-- C15, counterexample. On an input whose loop runs two iterations, each of the two
solvers enters a parallel region twice, not once. -/
theorem region_entered_twice :
    ComputeMCPASolution.regionEntries lib1 (mat1 1) (mat1 0) 0 1 2 1 (mat1 1) (mat1 1) = 2 ∧
      ComputeMCPASolutionNoCopyX.regionEntries lib1 (mat1 1) (mat1 0) 0 1 2 1 (mat1 1) (mat1 1)
        (mat1 0) = 2 := by
  have h1 := regionEntries_eq_it lib1 (mat1 1) (mat1 0) 0 1 2 1 (mat1 1) (mat1 1)
  have h2 := regionEntries_NoCopyX_eq_it lib1 (mat1 1) (mat1 0) 0 1 2 1 (mat1 1) (mat1 1)
    (mat1 0)
  rw [← NoCopyX_state_eq] at h2
  rw [two_passes_example] at h1 h2
  exact ⟨by exact_mod_cast h1.symm, by exact_mod_cast h2.symm⟩

/-- C15, amended. The parallel region is the body of the `while` loop: a solve enters
it once per iteration, so the number of regions entered by `ComputeMCPASolution`, and
by `ComputeMCPASolutionNoCopyX`, is the number of iterations executed. -/
theorem region_entered_per_iteration {n m K : Nat} (lib : EigenLib α n K)
    (X : Matrix (Fin n) (Fin m) α) (Lapl : Matrix (Fin n) (Fin n) α) (lambdaPrim : α)
    (D : Int) (maxIteration : Int) (tolerance : α) (Q : Matrix (Fin n) (Fin K) α)
    (G : Matrix (Fin m) (Fin K) α) (RXi0 : Matrix (Fin 1) (Fin m) α) :
    (ComputeMCPASolution.regionEntries lib X Lapl lambdaPrim D maxIteration tolerance Q G :
        Int) =
      (ComputeMCPASolution lib X Lapl lambdaPrim D maxIteration tolerance Q G).it ∧
    (ComputeMCPASolutionNoCopyX.regionEntries lib X Lapl lambdaPrim D maxIteration tolerance
        Q G RXi0 : Int) =
      (ComputeMCPASolutionNoCopyX lib X Lapl lambdaPrim D maxIteration tolerance Q G RXi0).it :=
  ⟨(regionEntries_eq_it lib X Lapl lambdaPrim D maxIteration tolerance Q G).symm,
    (regionEntries_NoCopyX_eq_it lib X Lapl lambdaPrim D maxIteration tolerance Q G RXi0).symm⟩

/-! ## The two least-squares steps -/

theorem ridge_mulVec {p K : Nat} (M : Matrix (Fin p) (Fin K) α) (c : α) (v : Fin K → α) :
    (Mᵀ * M + c • (1 : Matrix (Fin K) (Fin K) α)) *ᵥ v = Mᵀ *ᵥ (M *ᵥ v) + c • v := by
  rw [Matrix.add_mulVec, Matrix.mulVec_mulVec, Matrix.smul_mulVec_assoc, Matrix.one_mulVec]

theorem dotProduct_mulVec_transpose {p K : Nat} (M : Matrix (Fin p) (Fin K) α)
    (u : Fin p → α) (w : Fin K → α) : u ⬝ᵥ (M *ᵥ w) = (Mᵀ *ᵥ u) ⬝ᵥ w := by
  rw [Matrix.dotProduct_mulVec, Matrix.mulVec_transpose]

/-- When `x` solves `(Mᵀ M + c I) x = Mᵀ b`, the ridge objective at any `r` exceeds its
value at `x` by the quadratic form of `Mᵀ M + c I` at `r - x`. -/
theorem ridge_gap {p K : Nat} (M : Matrix (Fin p) (Fin K) α) (c : α) (b : Fin p → α)
    (x : Fin K → α)
    (hx : (Mᵀ * M + c • (1 : Matrix (Fin K) (Fin K) α)) *ᵥ x = Mᵀ *ᵥ b) (r : Fin K → α) :
    ridgeObjective M c b r =
      ridgeObjective M c b x +
        (r - x) ⬝ᵥ ((Mᵀ * M + c • (1 : Matrix (Fin K) (Fin K) α)) *ᵥ (r - x)) := by
  have h1 : Mᵀ *ᵥ (b - M *ᵥ x) = c • x := by
    rw [Matrix.mulVec_sub, ← hx, ridge_mulVec]
    abel
  have h2 : (b - M *ᵥ x) ⬝ᵥ (M *ᵥ (r - x)) = c * (x ⬝ᵥ (r - x)) := by
    rw [dotProduct_mulVec_transpose, h1, Matrix.smul_dotProduct, smul_eq_mul]
  have h3 : (r - x) ⬝ᵥ ((Mᵀ * M + c • (1 : Matrix (Fin K) (Fin K) α)) *ᵥ (r - x)) =
      (M *ᵥ (r - x)) ⬝ᵥ (M *ᵥ (r - x)) + c * ((r - x) ⬝ᵥ (r - x)) := by
    rw [ridge_mulVec, Matrix.dotProduct_add, Matrix.dotProduct_smul, smul_eq_mul,
      Matrix.dotProduct_mulVec, Matrix.vecMul_transpose]
  have hsplit : b - M *ᵥ r = (b - M *ᵥ x) - M *ᵥ (r - x) := by
    rw [Matrix.mulVec_sub]; abel
  have key1 : ∀ u w : Fin p → α,
      (u - w) ⬝ᵥ (u - w) = u ⬝ᵥ u - 2 * (u ⬝ᵥ w) + w ⬝ᵥ w := by
    intro u w
    rw [Matrix.sub_dotProduct, Matrix.dotProduct_sub, Matrix.dotProduct_sub,
      Matrix.dotProduct_comm w u]
    ring
  have key2 : ∀ y e : Fin K → α,
      (y + e) ⬝ᵥ (y + e) = y ⬝ᵥ y + 2 * (y ⬝ᵥ e) + e ⬝ᵥ e := by
    intro y e
    rw [Matrix.add_dotProduct, Matrix.dotProduct_add, Matrix.dotProduct_add,
      Matrix.dotProduct_comm e y]
    ring
  have hsq1 : (b - M *ᵥ r) ⬝ᵥ (b - M *ᵥ r) =
      (b - M *ᵥ x) ⬝ᵥ (b - M *ᵥ x) - 2 * ((b - M *ᵥ x) ⬝ᵥ (M *ᵥ (r - x))) +
        (M *ᵥ (r - x)) ⬝ᵥ (M *ᵥ (r - x)) := by
    rw [hsplit]
    exact key1 _ _
  have hsq2 : r ⬝ᵥ r = x ⬝ᵥ x + 2 * (x ⬝ᵥ (r - x)) + (r - x) ⬝ᵥ (r - x) := by
    have hr : r = x + (r - x) := by abel
    conv_lhs => rw [hr]
    exact key2 _ _
  unfold ridgeObjective
  linear_combination hsq1 + c * hsq2 - h3 - 2 * h2

theorem ridge_isSymm {p K : Nat} (M : Matrix (Fin p) (Fin K) α) (c : α) :
    (Mᵀ * M + c • (1 : Matrix (Fin K) (Fin K) α)).IsSymm :=
  (gram_isSymm M).add (Matrix.isSymm_one.smul c)

/-- A positive definite matrix has an invertible determinant. -/
theorem posDef_isUnit_det {K : Nat} (A : Matrix (Fin K) (Fin K) α)
    (hpd : ∀ v, v ≠ 0 → 0 < v ⬝ᵥ (A *ᵥ v)) : IsUnit A.det := by
  rw [isUnit_iff_ne_zero]
  intro h0
  obtain ⟨v, hv, hAv⟩ := Matrix.exists_mulVec_eq_zero_iff.mpr h0
  have := hpd v hv
  rw [hAv, Matrix.dotProduct_zero] at this
  exact lt_irrefl _ this

/-- A solution of `A x = b` with `A` invertible is `A⁻¹ b`. -/
theorem solution_eq_inv_mulVec {K : Nat} (A : Matrix (Fin K) (Fin K) α) (hA : IsUnit A.det)
    (x b : Fin K → α) (hx : A *ᵥ x = b) : x = A⁻¹ *ᵥ b := by
  rw [← hx, Matrix.mulVec_mulVec, Matrix.nonsing_inv_mul _ hA, Matrix.one_mulVec]

/-- What an exact `LDLT::solve` returns on a positive definite ridge system: the inverse
applied to the right-hand side, which is the only minimiser of the ridge objective. -/
theorem ridge_solve_minimizer {n p K : Nat} (lib : EigenLib α n K) (hsolve : LDLTExact lib)
    (M : Matrix (Fin p) (Fin K) α) (c : α) (b : Fin p → α)
    (hpd : ∀ v, v ≠ 0 →
      0 < v ⬝ᵥ ((Mᵀ * M + c • (1 : Matrix (Fin K) (Fin K) α)) *ᵥ v)) :
    lib.ldltSolve (Mᵀ * M + c • (1 : Matrix (Fin K) (Fin K) α)) (Mᵀ *ᵥ b) =
        (Mᵀ * M + c • (1 : Matrix (Fin K) (Fin K) α))⁻¹ *ᵥ (Mᵀ *ᵥ b) ∧
      ∀ r, r ≠ lib.ldltSolve (Mᵀ * M + c • (1 : Matrix (Fin K) (Fin K) α)) (Mᵀ *ᵥ b) →
        ridgeObjective M c b
            (lib.ldltSolve (Mᵀ * M + c • (1 : Matrix (Fin K) (Fin K) α)) (Mᵀ *ᵥ b)) <
          ridgeObjective M c b r := by
  have hsol := hsolve _ (Mᵀ *ᵥ b) (ridge_isSymm M c) hpd
  refine ⟨solution_eq_inv_mulVec _ (posDef_isUnit_det _ hpd) _ _ hsol, fun r hr => ?_⟩
  rw [ridge_gap M c b _ hsol r]
  have := hpd (r - lib.ldltSolve (Mᵀ * M + c • (1 : Matrix (Fin K) (Fin K) α)) (Mᵀ *ᵥ b))
    (sub_ne_zero.mpr hr)
  linarith

/-- C16. For every row `i`, every `G` and every weight `lambda * vps[i]` such that
`Gᵀ G + lambda * vps[i] * I` is positive definite (`LDLT::solve` being exact), the row
that Phase B leaves in `RQ` is `(Gᵀ G + lambda * vps[i] * I)⁻¹ Gᵀ RX[i,:]ᵀ` and is the
only minimiser over `r` of `‖RX[i,:] - r Gᵀ‖² + lambda * vps[i] * ‖r‖²`; the iteration
then sets `Q` to `ProjectQ (Rᵀ * RQ)`. -/
theorem updateRQ_ridge_minimizer {n m K : Nat} (lib : EigenLib α n K) (hsolve : LDLTExact lib)
    (X : Matrix (Fin n) (Fin m) α) (D : Int) (tolerance : α) (R : Matrix (Fin n) (Fin n) α)
    (lambda : α) (vps : Fin n → α) (G : Matrix (Fin m) (Fin K) α)
    (RX : Matrix (Fin n) (Fin m) α) (RQ : Matrix (Fin n) (Fin K) α) (i : Fin n)
    (hpd : ∀ v, v ≠ 0 →
      0 < v ⬝ᵥ ((Gᵀ * G + (lambda * vps i) • (1 : Matrix (Fin K) (Fin K) α)) *ᵥ v)) :
    updateRQ lib lambda vps G RX RQ i =
        (Gᵀ * G + (lambda * vps i) • (1 : Matrix (Fin K) (Fin K) α))⁻¹ *ᵥ (Gᵀ *ᵥ RX i) ∧
      (∀ r, r ≠ updateRQ lib lambda vps G RX RQ i →
        ridgeObjective G (lambda * vps i) (RX i) (updateRQ lib lambda vps G RX RQ i) <
          ridgeObjective G (lambda * vps i) (RX i) r) ∧
      ∀ st : SolverState α n m K,
        (iteration lib X D tolerance vps R RX lambda st).RQ =
            updateRQ lib lambda vps (iteration lib X D tolerance vps R RX lambda st).G RX
              (R * st.Q) ∧
          (iteration lib X D tolerance vps R RX lambda st).Q =
            ProjectQ (Rᵀ * (iteration lib X D tolerance vps R RX lambda st).RQ) := by
  have h := ridge_solve_minimizer lib hsolve G (lambda * vps i) (RX i) hpd
  rw [updateRQ_apply]
  exact ⟨h.1, h.2, fun st => ⟨rfl, rfl⟩⟩

theorem mat1_ridge_posDef (v : Fin 1 → ℚ) (hv : v ≠ 0) :
    0 < v ⬝ᵥ (((mat1 1)ᵀ * mat1 1 + ((1 : ℚ) * 1) • (1 : Matrix (Fin 1) (Fin 1) ℚ)) *ᵥ v) := by
  have h0 : v 0 ≠ 0 := by
    intro h
    apply hv
    funext k
    have hk : k = 0 := Subsingleton.elim _ _
    rw [hk, h]; rfl
  have hval : v ⬝ᵥ (((mat1 1)ᵀ * mat1 1 + ((1 : ℚ) * 1) • (1 : Matrix (Fin 1) (Fin 1) ℚ)) *ᵥ v)
      = 2 * (v 0 * v 0) := by
    simp [Matrix.dotProduct, Matrix.mulVec, Matrix.mul_apply, mat1, Matrix.add_apply]
    ring
  rw [hval]
  have := mul_self_pos.mpr h0
  linarith

/-- Witness of C16 on `1 × 1` matrices: `G = (1)`, `lambda = 1`, `vps = (1)`. -/
theorem updateRQ_ridge_minimizer_witness :
    LDLTExact lib1 ∧
      (∀ v : Fin 1 → ℚ, v ≠ 0 →
        0 < v ⬝ᵥ (((mat1 1)ᵀ * mat1 1 + ((1 : ℚ) * 1) • (1 : Matrix (Fin 1) (Fin 1) ℚ)) *ᵥ v)) ∧
      updateRQ lib1 1 (fun _ => 1) (mat1 1) (mat1 1) (mat1 0) 0 =
        ((mat1 1)ᵀ * mat1 1 + ((1 : ℚ) * 1) • (1 : Matrix (Fin 1) (Fin 1) ℚ))⁻¹ *ᵥ
          ((mat1 1)ᵀ *ᵥ mat1 1 0) :=
  ⟨lib1_ldltExact, mat1_ridge_posDef,
    (updateRQ_ridge_minimizer lib1 lib1_ldltExact (mat1 1) 1 1 (mat1 1) 1 (fun _ => 1) (mat1 1)
      (mat1 1) (mat1 0) 0 mat1_ridge_posDef).1⟩

/-- C17. For every `Q` with `Qᵀ Q` invertible (`LDLT::solve` being exact) and every row
index `j` of `G`, the row Phase A computes before the projection is the solve of the
one matrix `Qᵀ Q` of this iteration, equals `(Qᵀ Q)⁻¹ Qᵀ X[:,j]`, and is the only
minimiser over `g` of `‖X[:,j] - Q g‖²`, hence of `‖X[:,j] - Q g‖` for any increasing
square root; `G` after Phase A is `ProjectG` of the matrix of those rows. -/
theorem updateG_least_squares {n m K : Nat} (lib : EigenLib α n K) (hsolve : LDLTExact lib)
    (X : Matrix (Fin n) (Fin m) α) (Q : Matrix (Fin n) (Fin K) α)
    (G : Matrix (Fin m) (Fin K) α) (hinv : IsUnit (Qᵀ * Q).det) :
    (∀ j : Fin m, updateG lib X Q G j = lib.ldltSolve (Qᵀ * Q) (Qᵀ *ᵥ fun i => X i j)) ∧
    (∀ j : Fin m, updateG lib X Q G j = (Qᵀ * Q)⁻¹ *ᵥ (Qᵀ *ᵥ fun i => X i j)) ∧
    (∀ (j : Fin m) (g : Fin K → α), g ≠ updateG lib X Q G j →
      ((fun i => X i j) - Q *ᵥ updateG lib X Q G j) ⬝ᵥ
          ((fun i => X i j) - Q *ᵥ updateG lib X Q G j) <
        ((fun i => X i j) - Q *ᵥ g) ⬝ᵥ ((fun i => X i j) - Q *ᵥ g)) ∧
    (∀ sqrt : α → α, (∀ x y, 0 ≤ x → x < y → sqrt x < sqrt y) →
      ∀ (j : Fin m) (g : Fin K → α), g ≠ updateG lib X Q G j →
        sqrt (((fun i => X i j) - Q *ᵥ updateG lib X Q G j) ⬝ᵥ
            ((fun i => X i j) - Q *ᵥ updateG lib X Q G j)) <
          sqrt (((fun i => X i j) - Q *ᵥ g) ⬝ᵥ ((fun i => X i j) - Q *ᵥ g))) ∧
    (∀ (D : Int) (tolerance : α) (vps : Fin n → α) (R : Matrix (Fin n) (Fin n) α)
      (RX : Matrix (Fin n) (Fin m) α) (lambda : α) (st : SolverState α n m K), st.Q = Q →
      (iteration lib X D tolerance vps R RX lambda st).G =
        ProjectG (fun j => (Qᵀ * Q)⁻¹ *ᵥ (Qᵀ *ᵥ fun i => X i j)) D) := by
  have hpd : ∀ v, v ≠ 0 →
      0 < v ⬝ᵥ ((Qᵀ * Q + (0 : α) • (1 : Matrix (Fin K) (Fin K) α)) *ᵥ v) := by
    intro v hv
    rw [zero_smul, add_zero]
    exact gram_posDef Q hinv v hv
  have hmin : ∀ j : Fin m,
      lib.ldltSolve (Qᵀ * Q) (Qᵀ *ᵥ fun i => X i j) = (Qᵀ * Q)⁻¹ *ᵥ (Qᵀ *ᵥ fun i => X i j) ∧
      ∀ g, g ≠ lib.ldltSolve (Qᵀ * Q) (Qᵀ *ᵥ fun i => X i j) →
        ((fun i => X i j) - Q *ᵥ lib.ldltSolve (Qᵀ * Q) (Qᵀ *ᵥ fun i => X i j)) ⬝ᵥ
            ((fun i => X i j) - Q *ᵥ lib.ldltSolve (Qᵀ * Q) (Qᵀ *ᵥ fun i => X i j)) <
          ((fun i => X i j) - Q *ᵥ g) ⬝ᵥ ((fun i => X i j) - Q *ᵥ g) := by
    intro j
    have h := ridge_solve_minimizer lib hsolve Q 0 (fun i => X i j) hpd
    simp only [zero_smul, add_zero, ridgeObjective, zero_mul] at h
    exact h
  have hstrict : ∀ (j : Fin m) (g : Fin K → α), g ≠ updateG lib X Q G j →
      ((fun i => X i j) - Q *ᵥ updateG lib X Q G j) ⬝ᵥ
          ((fun i => X i j) - Q *ᵥ updateG lib X Q G j) <
        ((fun i => X i j) - Q *ᵥ g) ⬝ᵥ ((fun i => X i j) - Q *ᵥ g) := by
    intro j g hg
    rw [updateG_apply] at hg ⊢
    exact (hmin j).2 g hg
  refine ⟨fun j => updateG_apply lib X Q G j, ?_, hstrict, ?_, ?_⟩
  · intro j
    rw [updateG_apply]
    exact (hmin j).1
  · intro sqrt hmono j g hg
    exact hmono _ _ (Finset.sum_nonneg fun i _ => mul_self_nonneg _) (hstrict j g hg)
  · intro D tolerance vps R RX lambda st hst
    subst hst
    have hG : updateG lib X st.Q st.G =
        fun j => (st.Qᵀ * st.Q)⁻¹ *ᵥ (st.Qᵀ *ᵥ fun i => X i j) := by
      funext j
      rw [updateG_apply]
      exact (hmin j).1
    simp only [iteration, hG]

/-- Witness of C17 on `1 × 1` matrices with `Q = (1)`. -/
theorem updateG_least_squares_witness :
    LDLTExact lib1 ∧ IsUnit ((mat1 1)ᵀ * mat1 1).det ∧
      ∀ j : Fin 1, updateG lib1 (mat1 1) (mat1 1) (mat1 0) j =
        ((mat1 1)ᵀ * mat1 1)⁻¹ *ᵥ ((mat1 1)ᵀ *ᵥ fun i => mat1 1 i j) := by
  have hinv : IsUnit ((mat1 1)ᵀ * mat1 1).det := by
    simp [Matrix.det_fin_one, Matrix.mul_apply, mat1]
  exact ⟨lib1_ldltExact, hinv,
    (updateG_least_squares lib1 lib1_ldltExact (mat1 1) (mat1 1) (mat1 0) hinv).2.1⟩

end TESS3
